import Mathlib

/-!
# Verification of the rlox interpreter front end

Shallow embedding of the repository's scanner (src/scanner.rs), token model
(src/token.rs), parser (src/parse.rs), expression model (src/expression.rs)
and evaluator (src/interpret.rs), with theorems settling the spec claims.

Machine floats (Rust `f64`) are modelled by `F64` below: NaN, signed
infinities, and finite values carried as exact rationals.  The model follows
IEEE-754 comparison and special-value propagation rules but performs exact
(unrounded) finite arithmetic; every numeric literal appearing in a claim is
small and integer-valued, where `f64` arithmetic is itself exact, so the
difference is invisible to the claims.

Source text is modelled as `List Char`.  Rust's Unicode `char::is_whitespace`
and `char::is_alphanumeric` are modelled by Lean's ASCII `Char.isWhitespace`
and `Char.isAlphanum`; all inputs named by the spec and claims are ASCII,
where the two coincide.
-/

/-- Model of Rust `f64`: NaN, infinities (`neg` is the sign bit), or a finite
value carried as an exact rational. -/
inductive F64 where
  | nan : F64
  | inf (neg : Bool) : F64
  | fin (q : ℚ) : F64
deriving DecidableEq

namespace F64

/-- IEEE-754 equality (`f64 == f64` in Rust): NaN is equal to nothing,
including itself; finite values compare exactly. -/
def feq : F64 → F64 → Bool
  | fin a, fin b => a = b
  | inf s, inf t => s = t
  | _, _ => false

/-- IEEE-754 strict less-than (`f64 < f64` in Rust): false whenever either
operand is NaN. -/
def flt : F64 → F64 → Bool
  | fin a, fin b => a < b
  | fin _, inf s => !s
  | inf s, fin _ => s
  | inf s, inf t => s && !t
  | _, _ => false

/-- IEEE-754 less-or-equal (`f64 <= f64` in Rust). -/
def fle (x y : F64) : Bool := flt x y || feq x y

/-- IEEE-754 greater-than (`f64 > f64` in Rust). -/
def fgt (x y : F64) : Bool := flt y x

/-- IEEE-754 greater-or-equal (`f64 >= f64` in Rust). -/
def fge (x y : F64) : Bool := fle y x

/-- Negation (`-x` on `f64`); sign of zero is not tracked. -/
def fneg : F64 → F64
  | nan => nan
  | inf s => inf (!s)
  | fin q => fin (-q)

/-- Addition (`x + y` on `f64`), exact on finite values. -/
def fadd : F64 → F64 → F64
  | nan, _ => nan
  | _, nan => nan
  | inf s, inf t => if s = t then inf s else nan
  | inf s, fin _ => inf s
  | fin _, inf s => inf s
  | fin a, fin b => fin (a + b)

/-- Subtraction (`x - y` on `f64`). -/
def fsub (x y : F64) : F64 := fadd x (fneg y)

/-- Multiplication (`x * y` on `f64`), exact on finite values. -/
def fmul : F64 → F64 → F64
  | nan, _ => nan
  | _, nan => nan
  | inf s, inf t => inf (s != t)
  | inf s, fin q => if q = 0 then nan else inf (s != decide (q < 0))
  | fin q, inf s => if q = 0 then nan else inf (s != decide (q < 0))
  | fin a, fin b => fin (a * b)

/-- Division (`x / y` on `f64`): `0/0` is NaN, `x/0` for `x ≠ 0` is a signed
infinity, exact on other finite values. -/
def fdiv : F64 → F64 → F64
  | nan, _ => nan
  | _, nan => nan
  | inf _, inf _ => nan
  | inf s, fin q => inf (s != decide (q < 0))
  | fin _, inf _ => fin 0
  | fin a, fin b =>
      if b = 0 then (if a = 0 then nan else inf (decide (a < 0))) else fin (a / b)

/-- Shorthand for a finite integer-valued double. -/
def ofInt (n : ℤ) : F64 := fin n

end F64

/-- Runtime value (`enum Value` in src/interpret.rs). -/
inductive Value where
  | Nil : Value
  | Bool (b : Bool) : Value
  | Number (n : F64) : Value
  | String (s : List Char) : Value
deriving DecidableEq

/-- `Value::is_truthy` from src/interpret.rs: only `Nil` is false, booleans
are themselves, numbers and strings are always truthy. -/
def is_truthy : Value → Bool
  | Value.Nil => false
  | Value.Bool v => v
  | Value.Number _ => true
  | Value.String _ => true

/-- The derived `PartialEq` on `Value` (`left == right` in src/interpret.rs):
same-variant comparison, numbers via IEEE-754 equality, cross-variant false. -/
def value_eq : Value → Value → Bool
  | Value.Nil, Value.Nil => true
  | Value.Bool a, Value.Bool b => a = b
  | Value.Number a, Value.Number b => F64.feq a b
  | Value.String a, Value.String b => a = b
  | _, _ => false

/-- `left != right`: Rust's `PartialEq::ne` default method, the negation of
`eq` (which for the `f64` payload coincides with IEEE-754 inequality). -/
def value_ne (l r : Value) : Bool := ! value_eq l r

/-- `enum Literal` from src/expression.rs. -/
inductive Literal where
  | Nil : Literal
  | Bool (b : Bool) : Literal
  | Number (n : F64) : Literal
  | String (s : List Char) : Literal
deriving DecidableEq

/-- `enum Unary` from src/expression.rs. -/
inductive Unary where
  | Bang : Unary
  | Minus : Unary
deriving DecidableEq

/-- `enum Operator` from src/expression.rs. -/
inductive Operator where
  | Greater | GreaterEqual | Less | LessEqual
  | Equal | NotEqual
  | Minus | Plus | Divide | Multiply
deriving DecidableEq

/-- `enum Expr` from src/expression.rs.  The `GroupingExpr` / `UnaryExpr` /
`BinaryExpr` wrapper structs are inlined as constructor fields; `Box` becomes
direct ownership of the child. -/
inductive Expr where
  | Literal (l : Literal) : Expr
  | Grouping (e : Expr) : Expr
  | Unary (op : Unary) (e : Expr) : Expr
  | Binary (left : Expr) (op : Operator) (right : Expr) : Expr
deriving DecidableEq

/-- The value-level part of `Interpreter::eval_unary` (the operand is already
evaluated; src/interpret.rs lines 142-152). -/
def eval_unary_op : Unary → Value → Except String Value
  | Unary.Bang, v => Except.ok (Value.Bool (! is_truthy v))
  | Unary.Minus, Value.Number v => Except.ok (Value.Number (F64.fneg v))
  | Unary.Minus, Value.Nil => Except.error "can't '- nil'"
  | Unary.Minus, Value.Bool _ => Except.error "can't '- bool'"
  | Unary.Minus, Value.String _ => Except.error "can't '- string'"

/-- The value-level part of `Interpreter::eval_binary` (both operands already
evaluated; src/interpret.rs lines 154-215).  Match arms mirror the source in
order; in particular the `Equal` / `NotEqual` arms test the left operand for
`Bool` before the right one. -/
def eval_binary_op : Operator → Value → Value → Except String Value
  | Operator.Greater, Value.Number a, Value.Number b =>
      Except.ok (Value.Bool (F64.fgt a b))
  | Operator.Greater, _, _ => Except.error "can > only numbers"
  | Operator.GreaterEqual, Value.Number a, Value.Number b =>
      Except.ok (Value.Bool (F64.fge a b))
  | Operator.GreaterEqual, _, _ => Except.error "can >= only numbers"
  | Operator.Less, Value.Number a, Value.Number b =>
      Except.ok (Value.Bool (F64.flt a b))
  | Operator.Less, _, _ => Except.error "can < only numbers"
  | Operator.LessEqual, Value.Number a, Value.Number b =>
      Except.ok (Value.Bool (! F64.feq a b))
  | Operator.LessEqual, _, _ => Except.error "can <= only numbers"
  | Operator.Equal, Value.Bool v, right =>
      Except.ok (Value.Bool (v = is_truthy right))
  | Operator.Equal, left, Value.Bool v =>
      Except.ok (Value.Bool (v = is_truthy left))
  | Operator.Equal, left, right => Except.ok (Value.Bool (value_eq left right))
  | Operator.NotEqual, Value.Bool v, right =>
      Except.ok (Value.Bool (v != is_truthy right))
  | Operator.NotEqual, left, Value.Bool v =>
      Except.ok (Value.Bool (v != is_truthy left))
  | Operator.NotEqual, left, right => Except.ok (Value.Bool (value_ne left right))
  | Operator.Minus, Value.Number a, Value.Number b =>
      Except.ok (Value.Number (F64.fsub a b))
  | Operator.Minus, _, _ => Except.error "can only subtract numbers"
  | Operator.Plus, Value.Number a, Value.Number b =>
      Except.ok (Value.Number (F64.fadd a b))
  | Operator.Plus, Value.String a, Value.String b =>
      Except.ok (Value.String (a ++ b))
  | Operator.Plus, _, _ =>
      Except.error "can only add numbers or strings (for concatenation)"
  | Operator.Divide, Value.Number a, Value.Number b =>
      Except.ok (Value.Number (F64.fdiv a b))
  | Operator.Divide, _, _ => Except.error "can only divide numbers"
  | Operator.Multiply, Value.Number a, Value.Number b =>
      Except.ok (Value.Number (F64.fmul a b))
  | Operator.Multiply, _, _ => Except.error "can only multiply numbers"

/-- `Interpreter::evaluate` from src/interpret.rs.  Children of binary nodes
are evaluated left then right, errors propagating immediately, exactly as the
two `?` operators in `eval_binary` do. -/
def evaluate : Expr → Except String Value
  | Expr.Literal Literal.Nil => Except.ok Value.Nil
  | Expr.Literal (Literal.Bool v) => Except.ok (Value.Bool v)
  | Expr.Literal (Literal.Number v) => Except.ok (Value.Number v)
  | Expr.Literal (Literal.String v) => Except.ok (Value.String v)
  | Expr.Grouping e => evaluate e
  | Expr.Unary op e =>
      match evaluate e with
      | Except.error msg => Except.error msg
      | Except.ok v => eval_unary_op op v
  | Expr.Binary l op r =>
      match evaluate l with
      | Except.error msg => Except.error msg
      | Except.ok lv =>
          match evaluate r with
          | Except.error msg => Except.error msg
          | Except.ok rv => eval_binary_op op lv rv

/-- Injection of a runtime value into a literal expression; `Literal` and
`Value` have the same four variants. -/
def Value.toLit : Value → Literal
  | Value.Nil => Literal.Nil
  | Value.Bool b => Literal.Bool b
  | Value.Number n => Literal.Number n
  | Value.String s => Literal.String s

theorem evaluate_toLit (v : Value) : evaluate (Expr.Literal v.toLit) = Except.ok v := by
  cases v <;> rfl

example : F64.fsub (F64.fin 5) (F64.fin 2) = F64.fin 3 := by
  simp [F64.fsub, F64.fadd, F64.fneg]
  norm_num
example : evaluate (Expr.Binary (Expr.Literal (Literal.Number (F64.fin 1)))
    Operator.Plus (Expr.Literal (Literal.Number (F64.fin 2))))
    = Except.ok (Value.Number (F64.fin 3)) := by
  simp [evaluate, eval_binary_op, F64.fadd]
  norm_num

/-- `enum TokenType` from src/token.rs.  Number carries the decoded `f64`,
String the text between the quotes, Identifier its exact text. -/
inductive TokenType where
  | LeftParen | RightParen | LeftBrace | RightBrace
  | Comma | Dot | Minus | Plus | Semicolon | Slash | Star
  | Bang | BangEqual | Equal | EqualEqual
  | Greater | GreaterEqual | Less | LessEqual
  | Number (n : F64)
  | String (s : List Char)
  | Identifier (s : List Char)
  | And | Class | Else | False | Fun | For | If | Nil | Or
  | Print | Return | Super | This | True | Var | While
  | Eof
deriving DecidableEq

/-- `struct Token` from src/token.rs. -/
structure Token where
  ty : TokenType
  line : Nat
deriving DecidableEq

/-- The character class of the `Identifier` regex `[0-9a-zA-Z_]` in
src/token.rs, also used by the scanner's word/number boundary tests. -/
def isWordChar (c : Char) : Bool := c.isAlphanum || c = '_'

/-- The reserved-word table of src/token.rs (each keyword displays, and
therefore parses, as its lowercase name). -/
def keywords : List (List Char × TokenType) :=
  [("and".toList, TokenType.And), ("class".toList, TokenType.Class),
   ("else".toList, TokenType.Else), ("false".toList, TokenType.False),
   ("fun".toList, TokenType.Fun), ("for".toList, TokenType.For),
   ("if".toList, TokenType.If), ("nil".toList, TokenType.Nil),
   ("or".toList, TokenType.Or), ("print".toList, TokenType.Print),
   ("return".toList, TokenType.Return), ("super".toList, TokenType.Super),
   ("this".toList, TokenType.This), ("true".toList, TokenType.True),
   ("var".toList, TokenType.Var), ("while".toList, TokenType.While)]

/-- `word.parse::<TokenType>()` (the derived `FromStr` of src/token.rs) as
exercised by the scanner: the fixed reserved words parse to their keyword
tokens, any other nonempty `[0-9a-zA-Z_]+` run parses to `Identifier`, and
anything else is an error.  `Eof` has a never-matching regex and so is never
produced.  (Behaviour fixed by the repository's own tests: `scan_keyword`,
`scan_identifier`, and `"eof"` parsing to `Identifier("eof")`.) -/
def parseWord (w : List Char) : Except String TokenType :=
  match keywords.find? (fun kv => kv.1 = w) with
  | some kv => Except.ok kv.2
  | none =>
    if !w.isEmpty && w.all isWordChar then Except.ok (TokenType.Identifier w)
    else Except.error "parse failed"

/-- Result triple of `scan_token`: lines processed, remaining input, and
either a token (`Some`), no token (`None`: end of input or comment), or a
scan error. -/
abbrev ScanRes := Nat × List Char × Except String (Option TokenType)

/-- The shared shape of the four two-character operator arms in `scan_token`
(src/scanner.rs): if the next character is `=`, consume it and produce the
two-character token, otherwise produce the one-character token. -/
def twoCharOp (one two : TokenType) (cs : List Char) : ScanRes :=
  match cs with
  | '=' :: rest => (0, rest, Except.ok (some two))
  | _ => (0, cs, Except.ok (some one))

/-- `chars.find(|c| *c == '\n')` in the comment arm: consume up to and
including the first newline (or everything, at end of input). -/
def dropThroughNewline : List Char → List Char
  | [] => []
  | c :: rest => if c = '\n' then rest else dropThroughNewline rest

/-- The `/` arm of `scan_token`: a second `/` starts a line comment, which is
consumed through the newline and produces no token (and reports one processed
line); otherwise the one-character `Slash` token. -/
def slashArm (cs : List Char) : ScanRes :=
  match cs with
  | '/' :: _ => (1, dropThroughNewline cs, Except.ok none)
  | _ => (0, cs, Except.ok (some TokenType.Slash))

/-- The string-literal arm of `scan_token`: consume until the closing quote
(consuming it), counting interior newlines; running out of input is the
"Unterminated string" error.  `acc` is the content collected so far. -/
def scanStringAux : List Char → Nat → List Char → ScanRes
  | [], lines, _ => (lines, [], Except.error "Unterminated string")
  | c :: rest, lines, acc =>
    if c = '"' then (lines, rest, Except.ok (some (TokenType.String acc)))
    else scanStringAux rest (if c = '\n' then lines + 1 else lines) (acc ++ [c])

/-- Decimal digit-string value (the semantics of `str::parse::<f64>` on the
matched `digits` / `digits.digits` substring, which never fails there). -/
def digitsToNat (l : List Char) : Nat :=
  l.foldl (fun n c => 10 * n + (c.toNat - 48)) 0

/-- The matched number substring, integer part `ip` and fractional digits
`fp`, as an exact finite double. -/
def decToF64 (ip fp : List Char) : F64 :=
  F64.fin ((digitsToNat ip : ℚ) + (digitsToNat fp : ℚ) / (10 : ℚ) ^ fp.length)

/-- The number arm of `scan_token` (src/scanner.rs lines 131-160): one or
more digits, then a fractional part only when a digit immediately follows
the dot; a bare dot is left unconsumed.  `c` is the first digit, `cs` the
rest of the input. -/
def scanNumber (c : Char) (cs : List Char) : ScanRes :=
  let ds := cs.takeWhile Char.isDigit
  let after := cs.drop ds.length
  match after with
  | '.' :: rest =>
    let fs := rest.takeWhile Char.isDigit
    if 0 < fs.length then
      (0, rest.drop fs.length, Except.ok (some (TokenType.Number (decToF64 (c :: ds) fs))))
    else
      (0, after, Except.ok (some (TokenType.Number (decToF64 (c :: ds) []))))
  | _ => (0, after, Except.ok (some (TokenType.Number (decToF64 (c :: ds) []))))

/-- The keyword/identifier fallthrough of `scan_token`: split the input at
the first character outside `[0-9a-zA-Z_]` (`split_at` at that position is
`takeWhile`/`dropWhile`) and feed the word to the `TokenType` parser. -/
def scanWord (input : List Char) (lines : Nat) : ScanRes :=
  let word := input.takeWhile isWordChar
  let rem := input.dropWhile isWordChar
  match parseWord word with
  | Except.ok t => (lines, rem, Except.ok (some t))
  | Except.error e => (lines, rem, Except.error e)

/-- The body of `scan_token` after `input.trim_start()` (src/scanner.rs
lines 36-180), dispatching on the first character `c` (`cs` is the rest).
The `'\n'` arm of the source match produces no token and falls through to
the keyword/identifier path with `lines = 1`; it is unreachable because
trimming already removed leading whitespace, and is kept for fidelity. -/
def scanTokenCons (c : Char) (cs : List Char) : ScanRes :=
    if c = '\n' then scanWord (c :: cs) 1
    else if c = '(' then (0, cs, Except.ok (some TokenType.LeftParen))
    else if c = ')' then (0, cs, Except.ok (some TokenType.RightParen))
    else if c = '{' then (0, cs, Except.ok (some TokenType.LeftBrace))
    else if c = '}' then (0, cs, Except.ok (some TokenType.RightBrace))
    else if c = '.' then (0, cs, Except.ok (some TokenType.Dot))
    else if c = ',' then (0, cs, Except.ok (some TokenType.Comma))
    else if c = '-' then (0, cs, Except.ok (some TokenType.Minus))
    else if c = '+' then (0, cs, Except.ok (some TokenType.Plus))
    else if c = ';' then (0, cs, Except.ok (some TokenType.Semicolon))
    else if c = '*' then (0, cs, Except.ok (some TokenType.Star))
    else if c = '/' then slashArm cs
    else if c = '!' then twoCharOp TokenType.Bang TokenType.BangEqual cs
    else if c = '=' then twoCharOp TokenType.Equal TokenType.EqualEqual cs
    else if c = '>' then twoCharOp TokenType.Greater TokenType.GreaterEqual cs
    else if c = '<' then twoCharOp TokenType.Less TokenType.LessEqual cs
    else if c = '"' then scanStringAux cs 0 []
    else if c.isDigit then scanNumber c cs
    else if !(c.isAlphanum || c = '_') then
      (0, cs, Except.error ("Invalid character: '" ++ c.toString ++ "'"))
    else scanWord (c :: cs) 0

/-- The body of `scan_token` after trimming: empty input produces no token,
otherwise dispatch on the first character. -/
def scanTokenTrimmed : List Char → ScanRes
  | [] => (0, [], Except.ok none)
  | c :: cs => scanTokenCons c cs

/-- `scan_token` from src/scanner.rs: trim leading whitespace, then dispatch
on the first character. -/
def scan_token (input : List Char) : ScanRes :=
  scanTokenTrimmed (input.dropWhile Char.isWhitespace)

/-- The `while !source.is_empty()` loop of `scan_tokens` plus the final
`Eof` push (src/scanner.rs lines 8-33).  `Ok(Some)` pushes a token at the
current line and then advances the line counter; `Ok(None)` breaks out of
the loop; `Err` records the diagnostic (the source's `eprintln!`) and
continues.  The fuel argument only bounds the iteration count; each
continuing iteration strictly shortens the input (`scan_token_progress`
below), so the `source.length + 1` supplied by `scan_tokens` never runs
out (`scanLoop_fuel_irrelevant`). -/
def scanLoop : Nat → List Char → Nat → List Token → List (Nat × String) →
    List Token × List (Nat × String)
  | 0, _, line, acc, errs => (acc ++ [⟨TokenType.Eof, line⟩], errs)
  | fuel + 1, source, line, acc, errs =>
    if source.isEmpty then (acc ++ [⟨TokenType.Eof, line⟩], errs)
    else
      match scan_token source with
      | (lines, rem, Except.ok (some ty)) =>
          scanLoop fuel rem (line + lines) (acc ++ [⟨ty, line⟩]) errs
      | (_, _, Except.ok none) => (acc ++ [⟨TokenType.Eof, line⟩], errs)
      | (_, rem, Except.error e) => scanLoop fuel rem line acc (errs ++ [(line, e)])

/-- `scan_tokens` from src/scanner.rs, with the side-effect-logged scan
errors collected into the second component. -/
def scan_tokens (source : List Char) : List Token × List (Nat × String) :=
  scanLoop (source.length + 1) source 1 [] []

example : scan_token "(foo".toList = (0, "foo".toList, Except.ok (some TokenType.LeftParen)) := by rfl
example : scan_tokens "()".toList =
    ([⟨TokenType.LeftParen, 1⟩, ⟨TokenType.RightParen, 1⟩, ⟨TokenType.Eof, 1⟩], []) := by rfl
example : scan_token "//foo".toList = (1, [], Except.ok none) := by rfl
example : scan_token "<=foo".toList = (0, "foo".toList, Except.ok (some TokenType.LessEqual)) := by rfl

/-- `Parser::peek` from src/parse.rs: one token of lookahead through
`Vec::get`, which returns `None` past the end. -/
def peek (ts : List Token) (pos : Nat) : Option TokenType :=
  (ts.get? pos).map Token.ty

/-- Parse result: `none` stands for exhausted fuel (shown unreachable for
the fuel supplied by `Parser.parse` in theorem `parse_total`), otherwise the
source's `anyhow::Result<Expr>` together with the updated position. -/
abbrev PRes := Option (Except String (Expr × Nat))

/-- The operator test of the `equality` while loop (src/parse.rs). -/
def equalityOp : Option TokenType → Option Operator
  | some TokenType.BangEqual => some Operator.NotEqual
  | some TokenType.EqualEqual => some Operator.Equal
  | _ => none

/-- The operator test of the `comparison` while loop (src/parse.rs). -/
def comparisonOp : Option TokenType → Option Operator
  | some TokenType.Greater => some Operator.Greater
  | some TokenType.GreaterEqual => some Operator.GreaterEqual
  | some TokenType.Less => some Operator.Less
  | some TokenType.LessEqual => some Operator.LessEqual
  | _ => none

/-- The operator test of the `term` while loop (src/parse.rs). -/
def termOp : Option TokenType → Option Operator
  | some TokenType.Minus => some Operator.Minus
  | some TokenType.Plus => some Operator.Plus
  | _ => none

/-- The operator test of the `factor` while loop (src/parse.rs). -/
def factorOp : Option TokenType → Option Operator
  | some TokenType.Slash => some Operator.Divide
  | some TokenType.Star => some Operator.Multiply
  | _ => none

/-- The unary-operator test of `Parser::unary` (src/parse.rs). -/
def unaryOp : Option TokenType → Option Unary
  | some TokenType.Bang => some Unary.Bang
  | some TokenType.Minus => some Unary.Minus
  | _ => none

mutual

/-- `Parser::expression` from src/parse.rs. -/
def expression (ts : List Token) (pos : Nat) (fuel : Nat) : PRes :=
  match fuel with
  | 0 => none
  | fuel + 1 => equality ts pos fuel

termination_by structural fuel

/-- `Parser::equality` from src/parse.rs. -/
def equality (ts : List Token) (pos : Nat) (fuel : Nat) : PRes :=
  match fuel with
  | 0 => none
  | fuel + 1 =>
    match comparison ts pos fuel with
    | none => none
    | some (Except.error e) => some (Except.error e)
    | some (Except.ok (e, p)) => equalityLoop ts e p fuel

termination_by structural fuel

/-- The while loop of `Parser::equality`: fold further comparisons into a
left-associated `Binary` node. -/
def equalityLoop (ts : List Token) (e : Expr) (pos : Nat) (fuel : Nat) : PRes :=
  match fuel with
  | 0 => none
  | fuel + 1 =>
    match equalityOp (peek ts pos) with
    | some op =>
      match comparison ts (pos + 1) fuel with
      | none => none
      | some (Except.error msg) => some (Except.error msg)
      | some (Except.ok (r, p)) => equalityLoop ts (Expr.Binary e op r) p fuel
    | none => some (Except.ok (e, pos))

termination_by structural fuel

/-- `Parser::comparison` from src/parse.rs. -/
def comparison (ts : List Token) (pos : Nat) (fuel : Nat) : PRes :=
  match fuel with
  | 0 => none
  | fuel + 1 =>
    match term ts pos fuel with
    | none => none
    | some (Except.error e) => some (Except.error e)
    | some (Except.ok (e, p)) => comparisonLoop ts e p fuel

termination_by structural fuel

/-- The while loop of `Parser::comparison`. -/
def comparisonLoop (ts : List Token) (e : Expr) (pos : Nat) (fuel : Nat) : PRes :=
  match fuel with
  | 0 => none
  | fuel + 1 =>
    match comparisonOp (peek ts pos) with
    | some op =>
      match term ts (pos + 1) fuel with
      | none => none
      | some (Except.error msg) => some (Except.error msg)
      | some (Except.ok (r, p)) => comparisonLoop ts (Expr.Binary e op r) p fuel
    | none => some (Except.ok (e, pos))

termination_by structural fuel

/-- `Parser::term` from src/parse.rs. -/
def term (ts : List Token) (pos : Nat) (fuel : Nat) : PRes :=
  match fuel with
  | 0 => none
  | fuel + 1 =>
    match factor ts pos fuel with
    | none => none
    | some (Except.error e) => some (Except.error e)
    | some (Except.ok (e, p)) => termLoop ts e p fuel

termination_by structural fuel

/-- The while loop of `Parser::term`. -/
def termLoop (ts : List Token) (e : Expr) (pos : Nat) (fuel : Nat) : PRes :=
  match fuel with
  | 0 => none
  | fuel + 1 =>
    match termOp (peek ts pos) with
    | some op =>
      match factor ts (pos + 1) fuel with
      | none => none
      | some (Except.error msg) => some (Except.error msg)
      | some (Except.ok (r, p)) => termLoop ts (Expr.Binary e op r) p fuel
    | none => some (Except.ok (e, pos))

termination_by structural fuel

/-- `Parser::factor` from src/parse.rs. -/
def factor (ts : List Token) (pos : Nat) (fuel : Nat) : PRes :=
  match fuel with
  | 0 => none
  | fuel + 1 =>
    match unary ts pos fuel with
    | none => none
    | some (Except.error e) => some (Except.error e)
    | some (Except.ok (e, p)) => factorLoop ts e p fuel

termination_by structural fuel

/-- The while loop of `Parser::factor`. -/
def factorLoop (ts : List Token) (e : Expr) (pos : Nat) (fuel : Nat) : PRes :=
  match fuel with
  | 0 => none
  | fuel + 1 =>
    match factorOp (peek ts pos) with
    | some op =>
      match unary ts (pos + 1) fuel with
      | none => none
      | some (Except.error msg) => some (Except.error msg)
      | some (Except.ok (r, p)) => factorLoop ts (Expr.Binary e op r) p fuel
    | none => some (Except.ok (e, pos))

termination_by structural fuel

/-- `Parser::unary` from src/parse.rs: right-recursive prefix operators. -/
def unary (ts : List Token) (pos : Nat) (fuel : Nat) : PRes :=
  match fuel with
  | 0 => none
  | fuel + 1 =>
    match unaryOp (peek ts pos) with
    | some op =>
      match unary ts (pos + 1) fuel with
      | none => none
      | some (Except.error msg) => some (Except.error msg)
      | some (Except.ok (r, p)) => some (Except.ok (Expr.Unary op r, p))
    | none => primary ts pos fuel

termination_by structural fuel

/-- `Parser::primary` from src/parse.rs: one token for a literal, or a
parenthesized group requiring a matching `)`.  The missing-`)` error carries
the empty message of the source's `ensure!(.., "")`; any unmatched token is
"expected expression". -/
def primary (ts : List Token) (pos : Nat) (fuel : Nat) : PRes :=
  match fuel with
  | 0 => none
  | fuel + 1 =>
    match peek ts pos with
    | some TokenType.False => some (Except.ok (Expr.Literal (Literal.Bool false), pos + 1))
    | some TokenType.True => some (Except.ok (Expr.Literal (Literal.Bool true), pos + 1))
    | some TokenType.Nil => some (Except.ok (Expr.Literal Literal.Nil, pos + 1))
    | some (TokenType.Number v) => some (Except.ok (Expr.Literal (Literal.Number v), pos + 1))
    | some (TokenType.String s) => some (Except.ok (Expr.Literal (Literal.String s), pos + 1))
    | some TokenType.LeftParen =>
      match expression ts (pos + 1) fuel with
      | none => none
      | some (Except.error msg) => some (Except.error msg)
      | some (Except.ok (inner, p)) =>
        if peek ts p = some TokenType.RightParen then
          some (Except.ok (Expr.Grouping inner, p + 1))
        else some (Except.error "")
    | _ => some (Except.error "expected expression")
termination_by structural fuel
end

/-- Fuel supplied by `Parser.parse`; `parse_total` proves it suffices for
every token list, so the `"out of fuel"` fallback below is unreachable. -/
def parseFuel (ts : List Token) : Nat := 12 * ts.length + 12

/-- `Parser::parse` from src/parse.rs: one descent from the lowest-precedence
rule; trailing tokens after the parsed expression are ignored. -/
def Parser.parse (ts : List Token) : Except String Expr :=
  match expression ts 0 (parseFuel ts) with
  | none => Except.error "out of fuel"
  | some (Except.error e) => Except.error e
  | some (Except.ok (e, _)) => Except.ok e

example : Parser.parse [⟨TokenType.Number (F64.fin 1), 1⟩, ⟨TokenType.Minus, 1⟩,
    ⟨TokenType.Number (F64.fin 2), 1⟩, ⟨TokenType.Minus, 1⟩,
    ⟨TokenType.Number (F64.fin 3), 1⟩, ⟨TokenType.Eof, 1⟩] =
    Except.ok (Expr.Binary
      (Expr.Binary (Expr.Literal (Literal.Number (F64.fin 1))) Operator.Minus
        (Expr.Literal (Literal.Number (F64.fin 2))))
      Operator.Minus (Expr.Literal (Literal.Number (F64.fin 3)))) := by rfl

example : Parser.parse [] = Except.error "expected expression" := by rfl

theorem evaluate_binary_lit (l r : Value) (op : Operator) :
    evaluate (Expr.Binary (Expr.Literal l.toLit) op (Expr.Literal r.toLit)) =
      eval_binary_op op l r := by
  simp [evaluate, evaluate_toLit]

/-- C2: for number operands, the binary `<=` operator returns the boolean
"not equal" comparison of the two numbers (mirroring the numeric case of
`!=`), and for any non-number operand it fails with the type error naming
`<=`. -/
theorem claim_c2_lessequal_is_notequal :
    (∀ (e1 e2 : Expr) (a b : F64),
      evaluate e1 = Except.ok (Value.Number a) →
      evaluate e2 = Except.ok (Value.Number b) →
      evaluate (Expr.Binary e1 Operator.LessEqual e2) =
        Except.ok (Value.Bool (! F64.feq a b))) ∧
    (∀ (e1 e2 : Expr) (v1 v2 : Value),
      evaluate e1 = Except.ok v1 → evaluate e2 = Except.ok v2 →
      ((∀ a, v1 ≠ Value.Number a) ∨ (∀ b, v2 ≠ Value.Number b)) →
      evaluate (Expr.Binary e1 Operator.LessEqual e2) =
        Except.error "can <= only numbers") := by
  constructor
  · intro e1 e2 a b h1 h2
    simp [evaluate, h1, h2, eval_binary_op]
  · intro e1 e2 v1 v2 h1 h2 hne
    simp only [evaluate, h1, h2]
    cases v1 <;> cases v2 <;>
      first
        | (rcases hne with h | h
           · exact absurd rfl (h _)
           · exact absurd rfl (h _))
        | simp [eval_binary_op]

/-- Witness for C2 at concrete inputs: `1 <= 2` evaluates to the "not
equal" result (true), and `nil <= 2` is the `<=` type error. -/
theorem claim_c2_lessequal_is_notequal_witness :
    (evaluate (Expr.Binary (Expr.Literal (Literal.Number (F64.fin 1))) Operator.LessEqual
        (Expr.Literal (Literal.Number (F64.fin 2)))) =
      Except.ok (Value.Bool (! F64.feq (F64.fin 1) (F64.fin 2))) ∧
    (! F64.feq (F64.fin 1) (F64.fin 2)) = true) ∧
    evaluate (Expr.Binary (Expr.Literal Literal.Nil) Operator.LessEqual
        (Expr.Literal (Literal.Number (F64.fin 2)))) =
      Except.error "can <= only numbers" :=
  ⟨⟨claim_c2_lessequal_is_notequal.1 _ _ _ _ rfl rfl, by norm_num [F64.feq]⟩,
    claim_c2_lessequal_is_notequal.2 _ _ _ _ rfl rfl (Or.inl fun a h => by cases h)⟩

/-- The specification's description of `==` (claim C6), written from the
spec text: if either operand is a boolean, compare that boolean with the
truthiness of the other operand; otherwise compare by value within the same
variant (numbers by IEEE-754 equality, strings by exact text equality),
different non-boolean variants never being equal. -/
def equalSpecC6 (l r : Value) : Bool :=
  match l, r with
  | Value.Bool b, _ => b = is_truthy r
  | _, Value.Bool b => b = is_truthy l
  | Value.Nil, Value.Nil => true
  | Value.Number a, Value.Number b => F64.feq a b
  | Value.String a, Value.String b => a = b
  | _, _ => false

/-- C6: the evaluator's `==` agrees with the spec's description for every
pair of values and never raises a type error; in particular `1 == true` and
`"" == true` are true and `nil == true` is false. -/
theorem claim_c6_equal_semantics :
    (∀ l r : Value,
      evaluate (Expr.Binary (Expr.Literal l.toLit) Operator.Equal (Expr.Literal r.toLit)) =
        Except.ok (Value.Bool (equalSpecC6 l r))) ∧
    evaluate (Expr.Binary (Expr.Literal (Literal.Number (F64.fin 1))) Operator.Equal
        (Expr.Literal (Literal.Bool true))) = Except.ok (Value.Bool true) ∧
    evaluate (Expr.Binary (Expr.Literal (Literal.String [])) Operator.Equal
        (Expr.Literal (Literal.Bool true))) = Except.ok (Value.Bool true) ∧
    evaluate (Expr.Binary (Expr.Literal Literal.Nil) Operator.Equal
        (Expr.Literal (Literal.Bool true))) = Except.ok (Value.Bool false) := by
  refine ⟨?_, rfl, rfl, rfl⟩
  intro l r
  rw [evaluate_binary_lit]
  cases l <;> cases r <;> simp [eval_binary_op, equalSpecC6, value_eq]

/-- C9: for every pair of values, `!=` succeeds and returns exactly the
boolean negation of `==` on the same operands (NaN included, by
universality over `F64`). -/
theorem claim_c9_notequal_negates_equal : ∀ l r : Value, ∃ b : Bool,
    evaluate (Expr.Binary (Expr.Literal l.toLit) Operator.Equal (Expr.Literal r.toLit)) =
      Except.ok (Value.Bool b) ∧
    evaluate (Expr.Binary (Expr.Literal l.toLit) Operator.NotEqual (Expr.Literal r.toLit)) =
      Except.ok (Value.Bool (!b)) := by
  intro l r
  rw [evaluate_binary_lit, evaluate_binary_lit]
  have hx : ∀ (x y : Bool), (x ^^ y) = !decide (x = y) := by decide
  cases l <;> cases r <;>
    exact ⟨_, rfl, by simp [eval_binary_op, value_ne, value_eq, Bool.bne_eq_xor, hx]⟩

theorem length_dropWhile_le (p : Char → Bool) (l : List Char) :
    (l.dropWhile p).length ≤ l.length := by
  induction l with
  | nil => simp
  | cons a as ih =>
    rw [List.dropWhile_cons]
    split
    · exact le_trans ih (by simp)
    · simp

theorem dropWhile_head_pred {p : Char → Bool} {l : List Char} {c : Char} {cs : List Char}
    (h : l.dropWhile p = c :: cs) : p c = false := by
  induction l with
  | nil => simp at h
  | cons a as ih =>
    rw [List.dropWhile_cons] at h
    split at h
    · exact ih h
    · rename_i hpc
      cases h
      simpa using hpc

theorem twoCharOp_rem (one two : TokenType) (cs : List Char) :
    ((twoCharOp one two cs).2.1).length ≤ cs.length := by
  unfold twoCharOp
  split <;> simp

theorem slashArm_progress (cs : List Char) (h : (slashArm cs).2.2 ≠ Except.ok none) :
    ((slashArm cs).2.1).length ≤ cs.length := by
  unfold slashArm at h ⊢
  split at h
  · exact absurd rfl h
  · simp

theorem scanStringAux_rem (l : List Char) : ∀ lines acc,
    ((scanStringAux l lines acc).2.1).length ≤ l.length := by
  induction l with
  | nil => intro lines acc; simp [scanStringAux]
  | cons c rest ih =>
    intro lines acc
    simp only [scanStringAux]
    split
    · simp
    · exact le_trans (ih _ _) (by simp)

theorem scanNumber_rem (c : Char) (cs : List Char) :
    ((scanNumber c cs).2.1).length ≤ cs.length := by
  unfold scanNumber
  dsimp only
  split
  · rename_i rest heq
    have hlen : rest.length + 1 ≤ cs.length := by
      have := congrArg List.length heq
      simp [List.length_drop] at this
      omega
    split
    · simp [List.length_drop]
      omega
    · rw [heq]
      simp
      omega
  · simp [List.length_drop]

theorem scanWord_rem_cons (c : Char) (cs : List Char) (lines : Nat)
    (h : isWordChar c = true) :
    ((scanWord (c :: cs) lines).2.1).length ≤ cs.length := by
  unfold scanWord
  dsimp only
  have hdw : (c :: cs).dropWhile isWordChar = cs.dropWhile isWordChar := by
    rw [List.dropWhile_cons, if_pos h]
  split <;> simp [hdw, length_dropWhile_le]

theorem scanTokenCons_progress (c : Char) (cs : List Char)
    (hw : c.isWhitespace = false)
    (hres : (scanTokenCons c cs).2.2 ≠ Except.ok none) :
    ((scanTokenCons c cs).2.1).length ≤ cs.length := by
  unfold scanTokenCons at hres ⊢
  by_cases h1 : c = '\n'
  · rw [if_pos h1] at hres ⊢
    exact absurd hw (by rw [h1]; decide)
  rw [if_neg h1] at hres ⊢
  by_cases h2 : c = '('
  · rw [if_pos h2] at hres ⊢
  rw [if_neg h2] at hres ⊢
  by_cases h3 : c = ')'
  · rw [if_pos h3] at hres ⊢
  rw [if_neg h3] at hres ⊢
  by_cases h4 : c = '{'
  · rw [if_pos h4] at hres ⊢
  rw [if_neg h4] at hres ⊢
  by_cases h5 : c = '}'
  · rw [if_pos h5] at hres ⊢
  rw [if_neg h5] at hres ⊢
  by_cases h6 : c = '.'
  · rw [if_pos h6] at hres ⊢
  rw [if_neg h6] at hres ⊢
  by_cases h7 : c = ','
  · rw [if_pos h7] at hres ⊢
  rw [if_neg h7] at hres ⊢
  by_cases h8 : c = '-'
  · rw [if_pos h8] at hres ⊢
  rw [if_neg h8] at hres ⊢
  by_cases h9 : c = '+'
  · rw [if_pos h9] at hres ⊢
  rw [if_neg h9] at hres ⊢
  by_cases h10 : c = ';'
  · rw [if_pos h10] at hres ⊢
  rw [if_neg h10] at hres ⊢
  by_cases h11 : c = '*'
  · rw [if_pos h11] at hres ⊢
  rw [if_neg h11] at hres ⊢
  by_cases h12 : c = '/'
  · rw [if_pos h12] at hres ⊢
    exact slashArm_progress cs hres
  rw [if_neg h12] at hres ⊢
  by_cases h13 : c = '!'
  · rw [if_pos h13] at hres ⊢
    exact twoCharOp_rem _ _ cs
  rw [if_neg h13] at hres ⊢
  by_cases h14 : c = '='
  · rw [if_pos h14] at hres ⊢
    exact twoCharOp_rem _ _ cs
  rw [if_neg h14] at hres ⊢
  by_cases h15 : c = '>'
  · rw [if_pos h15] at hres ⊢
    exact twoCharOp_rem _ _ cs
  rw [if_neg h15] at hres ⊢
  by_cases h16 : c = '<'
  · rw [if_pos h16] at hres ⊢
    exact twoCharOp_rem _ _ cs
  rw [if_neg h16] at hres ⊢
  by_cases h17 : c = '\"'
  · rw [if_pos h17] at hres ⊢
    exact scanStringAux_rem cs 0 []
  rw [if_neg h17] at hres ⊢
  by_cases h18 : c.isDigit = true
  · rw [if_pos h18] at hres ⊢
    exact scanNumber_rem c cs
  rw [if_neg h18] at hres ⊢
  by_cases h19 : (!(c.isAlphanum || decide (c = '_'))) = true
  · rw [if_pos h19] at hres ⊢
  rw [if_neg h19] at hres ⊢
  refine scanWord_rem_cons c cs 0 ?_
  simp only [isWordChar]
  rcases Bool.eq_false_or_eq_true c.isAlphanum with ha | ha
  · rw [ha] at h19 ⊢
    simp at h19 ⊢
    try exact h19
  · rw [ha] at h19 ⊢
    simp at h19 ⊢
    try exact h19

theorem scan_token_progress (s : List Char) (hs : s ≠ [])
    (hres : (scan_token s).2.2 ≠ Except.ok none) :
    ((scan_token s).2.1).length < s.length := by
  unfold scan_token at hres ⊢
  cases htrim : s.dropWhile Char.isWhitespace with
  | nil =>
    rw [htrim] at hres
    exact absurd rfl hres
  | cons c cs =>
    rw [htrim] at hres
    simp only [scanTokenTrimmed] at hres ⊢
    have hw : c.isWhitespace = false := dropWhile_head_pred htrim
    have h1 := scanTokenCons_progress c cs hw hres
    have h2 := length_dropWhile_le Char.isWhitespace s
    rw [htrim] at h2
    simp at h2
    have hpos : 0 < s.length := by
      cases s
      · exact absurd rfl hs
      · simp
    omega

/-- Any fuel above the input length gives the same result as the
`source.length + 1` used by `scan_tokens`: the loop always breaks or empties
the input first, so the fuel bound is immaterial and the model agrees with
the unbounded Rust loop. -/
theorem scanLoop_fuel_irrelevant : ∀ (f : Nat) (s : List Char) (line : Nat)
    (acc : List Token) (errs : List (Nat × String)), s.length < f →
    scanLoop f s line acc errs = scanLoop (s.length + 1) s line acc errs := by
  intro f
  induction f using Nat.strong_induction_on with
  | _ f ih =>
    intro s line acc errs hf
    obtain ⟨g, rfl⟩ : ∃ g, f = g + 1 := ⟨f - 1, by omega⟩
    by_cases hemp : s.isEmpty
    · simp [scanLoop, hemp]
    · have hsne : s ≠ [] := by
        cases s
        · simp at hemp
        · simp
      simp only [scanLoop, hemp, ite_false]
      rcases hsc : scan_token s with ⟨lines, rem, res⟩
      cases res with
      | ok o =>
        cases o with
        | none => simp
        | some ty =>
          simp only
          have hp : rem.length < s.length := by
            have := scan_token_progress s hsne (by rw [hsc]; simp)
            rw [hsc] at this
            exact this
          rw [ih g (by omega) rem _ _ _ (by omega),
            ih s.length (by omega) rem _ _ _ (by omega)]
      | error e =>
        simp only
        have hp : rem.length < s.length := by
          have := scan_token_progress s hsne (by rw [hsc]; simp)
          rw [hsc] at this
          exact this
        rw [ih g (by omega) rem _ _ _ (by omega),
          ih s.length (by omega) rem _ _ _ (by omega)]

theorem parseWord_ne_eof (w : List Char) (t : TokenType)
    (h : parseWord w = Except.ok t) : t ≠ TokenType.Eof := by
  unfold parseWord at h
  have hkw : ∀ kv ∈ keywords, kv.2 ≠ TokenType.Eof := by decide
  split at h
  · rename_i kv heq
    simp at h
    rw [← h]
    exact hkw kv (List.mem_of_find?_eq_some heq)
  · split_ifs at h
    simp at h
    simp [← h]

theorem scanStringAux_shape (l : List Char) : ∀ lines acc ty,
    (scanStringAux l lines acc).2.2 = Except.ok (some ty) →
    ∃ s, ty = TokenType.String s := by
  induction l with
  | nil => intro lines acc ty h; simp [scanStringAux] at h
  | cons c rest ih =>
    intro lines acc ty h
    simp only [scanStringAux] at h
    split at h
    · simp at h
      exact ⟨acc, h.symm⟩
    · exact ih _ _ _ h

theorem scanNumber_shape (c : Char) (cs : List Char) (ty : TokenType)
    (h : (scanNumber c cs).2.2 = Except.ok (some ty)) :
    ∃ v, ty = TokenType.Number v := by
  unfold scanNumber at h
  dsimp only at h
  split at h
  · split_ifs at h <;> (simp at h; exact ⟨_, h.symm⟩)
  · simp at h
    exact ⟨_, h.symm⟩

theorem twoCharOp_shape (one two : TokenType) (cs : List Char) (ty : TokenType)
    (h : (twoCharOp one two cs).2.2 = Except.ok (some ty)) :
    ty = one ∨ ty = two := by
  unfold twoCharOp at h
  split at h <;> simp at h <;> simp [h]

theorem slashArm_shape (cs : List Char) (ty : TokenType)
    (h : (slashArm cs).2.2 = Except.ok (some ty)) : ty = TokenType.Slash := by
  unfold slashArm at h
  split at h <;> simp at h
  exact h.symm

theorem scanWord_shape (input : List Char) (lines : Nat) (ty : TokenType)
    (h : (scanWord input lines).2.2 = Except.ok (some ty)) :
    parseWord (input.takeWhile isWordChar) = Except.ok ty := by
  unfold scanWord at h
  dsimp only at h
  split at h
  · rename_i t heq
    simp at h
    rw [heq, h]
  · simp at h

theorem scanTokenCons_ne_eof (c : Char) (cs : List Char) (ty : TokenType)
    (h : (scanTokenCons c cs).2.2 = Except.ok (some ty)) : ty ≠ TokenType.Eof := by
  have word_case : ∀ {inp : List Char} {lines : Nat},
      (scanWord inp lines).2.2 = Except.ok (some ty) → ty ≠ TokenType.Eof :=
    fun hw => parseWord_ne_eof _ _ (scanWord_shape _ _ _ hw)
  unfold scanTokenCons at h
  by_cases h1 : c = '\n'
  · rw [if_pos h1] at h
    exact word_case h
  rw [if_neg h1] at h
  by_cases h2 : c = '('
  · rw [if_pos h2] at h
    simp at h
    simp [← h]
  rw [if_neg h2] at h
  by_cases h3 : c = ')'
  · rw [if_pos h3] at h
    simp at h
    simp [← h]
  rw [if_neg h3] at h
  by_cases h4 : c = '{'
  · rw [if_pos h4] at h
    simp at h
    simp [← h]
  rw [if_neg h4] at h
  by_cases h5 : c = '}'
  · rw [if_pos h5] at h
    simp at h
    simp [← h]
  rw [if_neg h5] at h
  by_cases h6 : c = '.'
  · rw [if_pos h6] at h
    simp at h
    simp [← h]
  rw [if_neg h6] at h
  by_cases h7 : c = ','
  · rw [if_pos h7] at h
    simp at h
    simp [← h]
  rw [if_neg h7] at h
  by_cases h8 : c = '-'
  · rw [if_pos h8] at h
    simp at h
    simp [← h]
  rw [if_neg h8] at h
  by_cases h9 : c = '+'
  · rw [if_pos h9] at h
    simp at h
    simp [← h]
  rw [if_neg h9] at h
  by_cases h10 : c = ';'
  · rw [if_pos h10] at h
    simp at h
    simp [← h]
  rw [if_neg h10] at h
  by_cases h11 : c = '*'
  · rw [if_pos h11] at h
    simp at h
    simp [← h]
  rw [if_neg h11] at h
  by_cases h12 : c = '/'
  · rw [if_pos h12] at h
    rw [slashArm_shape _ _ h]
    simp
  rw [if_neg h12] at h
  by_cases h13 : c = '!'
  · rw [if_pos h13] at h
    rcases twoCharOp_shape _ _ _ _ h with rfl | rfl <;> simp
  rw [if_neg h13] at h
  by_cases h14 : c = '='
  · rw [if_pos h14] at h
    rcases twoCharOp_shape _ _ _ _ h with rfl | rfl <;> simp
  rw [if_neg h14] at h
  by_cases h15 : c = '>'
  · rw [if_pos h15] at h
    rcases twoCharOp_shape _ _ _ _ h with rfl | rfl <;> simp
  rw [if_neg h15] at h
  by_cases h16 : c = '<'
  · rw [if_pos h16] at h
    rcases twoCharOp_shape _ _ _ _ h with rfl | rfl <;> simp
  rw [if_neg h16] at h
  by_cases h17 : c = '\"'
  · rw [if_pos h17] at h
    obtain ⟨str, rfl⟩ := scanStringAux_shape _ _ _ _ h
    simp
  rw [if_neg h17] at h
  by_cases h18 : c.isDigit = true
  · rw [if_pos h18] at h
    obtain ⟨v, rfl⟩ := scanNumber_shape _ _ _ h
    simp
  rw [if_neg h18] at h
  by_cases h19 : (!(c.isAlphanum || decide (c = '_'))) = true
  · rw [if_pos h19] at h
    simp at h
  rw [if_neg h19] at h
  exact word_case h

theorem scan_token_ne_eof (s : List Char) (ty : TokenType)
    (h : (scan_token s).2.2 = Except.ok (some ty)) : ty ≠ TokenType.Eof := by
  unfold scan_token at h
  cases htrim : s.dropWhile Char.isWhitespace with
  | nil =>
    rw [htrim] at h
    simp [scanTokenTrimmed] at h
  | cons c cs =>
    rw [htrim] at h
    simp only [scanTokenTrimmed] at h
    exact scanTokenCons_ne_eof c cs ty h

/-- Every exit path of the scanner loop appends exactly one `Eof` token
after tokens that are never `Eof`. -/
theorem scanLoop_eof_spec : ∀ (f : Nat) (s : List Char) (line : Nat)
    (acc : List Token) (errs : List (Nat × String)),
    ∃ mid n, (scanLoop f s line acc errs).1 = acc ++ mid ++ [⟨TokenType.Eof, n⟩] ∧
      ∀ t ∈ mid, t.ty ≠ TokenType.Eof := by
  intro f
  induction f with
  | zero => intro s line acc errs; exact ⟨[], line, by simp [scanLoop], by simp⟩
  | succ g ih =>
    intro s line acc errs
    by_cases hemp : s.isEmpty
    · exact ⟨[], line, by simp [scanLoop, hemp], by simp⟩
    · rcases hsc : scan_token s with ⟨lines, rem, res⟩
      cases res with
      | ok o =>
        cases o with
        | none =>
          refine ⟨[], line, ?_, by simp⟩
          simp [scanLoop, hemp, hsc]
        | some ty =>
          obtain ⟨mid, n, hmid, hne⟩ := ih rem (line + lines) (acc ++ [⟨ty, line⟩]) errs
          refine ⟨⟨ty, line⟩ :: mid, n, ?_, ?_⟩
          · simp [scanLoop, hemp, hsc, hmid]
          · intro t ht
            rcases List.mem_cons.mp ht with rfl | hmem
            · exact scan_token_ne_eof s ty (by rw [hsc])
            · exact hne t hmem
      | error e =>
        obtain ⟨mid, n, hmid, hne⟩ := ih rem line acc (errs ++ [(line, e)])
        refine ⟨mid, n, ?_, hne⟩
        simp [scanLoop, hemp, hsc, hmid]

/-- C5: for every input, the token sequence ends with exactly one `Eof`
token and `Eof` appears nowhere else. -/
theorem claim_c5_eof_sentinel (s : List Char) : ∃ n,
    ((scan_tokens s).1.getLast? = some ⟨TokenType.Eof, n⟩ ∧
      ∀ t ∈ (scan_tokens s).1.dropLast, t.ty ≠ TokenType.Eof) := by
  obtain ⟨mid, n, hmid, hne⟩ := scanLoop_eof_spec (s.length + 1) s 1 [] []
  refine ⟨n, ?_, ?_⟩
  · unfold scan_tokens
    rw [hmid]
    simp
  · unfold scan_tokens
    rw [hmid]
    simp only [List.nil_append]
    rw [List.dropLast_concat]
    exact hne

theorem decToF64_nil (l : List Char) : decToF64 l [] = F64.fin (digitsToNat l) := by
  simp [decToF64, digitsToNat]

theorem decToF64_1 : decToF64 ['1'] [] = F64.fin 1 := by
  rw [decToF64_nil]
  norm_num [show digitsToNat ['1'] = 1 from by decide]

theorem decToF64_2 : decToF64 ['2'] [] = F64.fin 2 := by
  rw [decToF64_nil]
  norm_num [show digitsToNat ['2'] = 2 from by decide]

theorem decToF64_12 : decToF64 ['1', '2'] [] = F64.fin 12 := by
  rw [decToF64_nil]
  norm_num [show digitsToNat ['1', '2'] = 12 from by decide]

theorem decToF64_34 : decToF64 ['3', '4'] [] = F64.fin 34 := by
  rw [decToF64_nil]
  norm_num [show digitsToNat ['3', '4'] = 34 from by decide]

theorem decToF64_10 : decToF64 ['1', '0'] [] = F64.fin 10 := by
  rw [decToF64_nil]
  norm_num [show digitsToNat ['1', '0'] = 10 from by decide]

theorem decToF64_123 : decToF64 ['1', '2', '3'] [] = F64.fin 123 := by
  rw [decToF64_nil]
  norm_num [show digitsToNat ['1', '2', '3'] = 123 from by decide]

theorem decToF64_200 : decToF64 ['2', '0', '0'] [] = F64.fin 200 := by
  rw [decToF64_nil]
  norm_num [show digitsToNat ['2', '0', '0'] = 200 from by decide]

/-- C1 (code behaviour at the failing input): a line comment makes
`scan_tokens` stop scanning entirely (the loop breaks on the comment arm's
`Ok(None)`), so the `2` after the comment in `"1 + // c\n2"` produces no
token: the result is `[Number 1, Plus, Eof]` with no diagnostics, not the
claimed `[Number 1, Plus, Number 2, Eof]`. -/
theorem claim_c1_comment_stops_scanning :
    scan_tokens "1 + // c\n2".toList =
      ([⟨TokenType.Number (F64.fin 1), 1⟩, ⟨TokenType.Plus, 1⟩, ⟨TokenType.Eof, 1⟩], []) := by
  have h : scan_tokens "1 + // c\n2".toList =
      ([⟨TokenType.Number (decToF64 ['1'] []), 1⟩, ⟨TokenType.Plus, 1⟩,
        ⟨TokenType.Eof, 1⟩], []) := rfl
  rw [decToF64_1] at h
  exact h

/-- C3 (code behaviour at the failing input): newlines in inter-token
whitespace are removed by `trim_start` without touching the line counter
(the `'\n'` match arm that would count them is unreachable), so in
`"1\n2"` the token for `2` records line 1, where the claim requires
line 2. -/
theorem claim_c3_whitespace_newlines_uncounted :
    scan_tokens "1\n2".toList =
      ([⟨TokenType.Number (F64.fin 1), 1⟩, ⟨TokenType.Number (F64.fin 2), 1⟩,
        ⟨TokenType.Eof, 1⟩], []) ∧
    (scan_tokens "1\n2".toList).1.map Token.line = [1, 1, 1] := by
  have h : scan_tokens "1\n2".toList =
      ([⟨TokenType.Number (decToF64 ['1'] []), 1⟩, ⟨TokenType.Number (decToF64 ['2'] []), 1⟩,
        ⟨TokenType.Eof, 1⟩], []) := rfl
  rw [decToF64_1, decToF64_2] at h
  exact ⟨h, by rw [h]; rfl⟩

/-- C4: an unrecognized character that is not whitespace, not alphanumeric
and not `_` is reported as an "Invalid character" scan error, the scanner
skips exactly that character and resumes; scanning `"123 + @200"` yields
`[Number 123, Plus, Number 200, Eof]` plus the single diagnostic for `@`. -/
theorem claim_c4_invalid_char_recovery :
    (∀ (c : Char) (rest : List Char),
      c.isWhitespace = false → c.isAlphanum = false → c ≠ '_' →
      c ∉ ['\n', '(', ')', '{', '}', '.', ',', '-', '+', ';', '*', '/',
           '!', '=', '>', '<', '"'] →
      scan_token (c :: rest) =
        (0, rest, Except.error ("Invalid character: '" ++ c.toString ++ "'"))) ∧
    scan_tokens "123 + @200".toList =
      ([⟨TokenType.Number (F64.fin 123), 1⟩, ⟨TokenType.Plus, 1⟩,
        ⟨TokenType.Number (F64.fin 200), 1⟩, ⟨TokenType.Eof, 1⟩],
       [(1, "Invalid character: '@'")]) := by
  constructor
  · intro c rest hws halnum hund hmem
    simp only [List.mem_cons, not_or] at hmem
    obtain ⟨hn, hlp, hrp, hlb, hrb, hdot, hcomma, hminus, hplus, hsemi, hstar,
      hslash, hbang, heq, hgt, hlt, hquote, -⟩ := hmem
    have hdig : c.isDigit = false := by
      rcases Bool.eq_false_or_eq_true c.isDigit with h | h
      · exact absurd (by simp [Char.isAlphanum, h] : c.isAlphanum = true) (by simp [halnum])
      · exact h
    unfold scan_token
    rw [List.dropWhile_cons, if_neg (by simp [hws])]
    simp only [scanTokenTrimmed]
    unfold scanTokenCons
    rw [if_neg hn, if_neg hlp, if_neg hrp, if_neg hlb, if_neg hrb, if_neg hdot,
      if_neg hcomma, if_neg hminus, if_neg hplus, if_neg hsemi, if_neg hstar,
      if_neg hslash, if_neg hbang, if_neg heq, if_neg hgt, if_neg hlt,
      if_neg hquote, if_neg (by simp [hdig]), if_pos (by simp [halnum, hund])]
  · have h : scan_tokens "123 + @200".toList =
        ([⟨TokenType.Number (decToF64 ['1', '2', '3'] []), 1⟩, ⟨TokenType.Plus, 1⟩,
          ⟨TokenType.Number (decToF64 ['2', '0', '0'] []), 1⟩, ⟨TokenType.Eof, 1⟩],
         [(1, "Invalid character: '@'")]) := rfl
    rw [decToF64_123, decToF64_200] at h
    exact h

/-- Witness for C4's general part at `c = '@'`. -/
theorem claim_c4_invalid_char_recovery_witness :
    scan_token ('@' :: "200".toList) =
      (0, "200".toList, Except.error ("Invalid character: '" ++ '@'.toString ++ "'")) :=
  claim_c4_invalid_char_recovery.1 '@' "200".toList (by decide) (by decide)
    (by decide) (by decide)

theorem takeWhile_append_eq {p : Char → Bool} : ∀ (l r : List Char), l.all p = true →
    r.takeWhile p = [] → (l ++ r).takeWhile p = l := by
  intro l
  induction l with
  | nil => intro r _ hr; simpa using hr
  | cons a as ih =>
    intro r hall hr
    simp only [List.all_cons, Bool.and_eq_true] at hall
    rw [List.cons_append, List.takeWhile_cons, if_pos hall.1, ih r hall.2 hr]

/-- General shape of the scanner's number arm (first digit `d`, further
digits `ds`): the fractional part is consumed exactly when at least one
digit immediately follows the dot. -/
theorem scanNumber_fraction (d : Char) (ds fs rest : List Char)
    (hds : ds.all Char.isDigit = true) (hfs : fs.all Char.isDigit = true)
    (hfs0 : fs ≠ []) (hrest : rest.takeWhile Char.isDigit = []) :
    scanNumber d (ds ++ '.' :: (fs ++ rest)) =
      (0, rest, Except.ok (some (TokenType.Number (decToF64 (d :: ds) fs)))) := by
  unfold scanNumber
  have h1 : ('.' :: (fs ++ rest)).takeWhile Char.isDigit = [] := by
    rw [List.takeWhile_cons, if_neg (by decide)]
  rw [takeWhile_append_eq ds _ hds h1]
  dsimp only
  rw [List.drop_left]
  split
  · rename_i after rest1 heq
    obtain rfl : fs ++ rest = rest1 := by injection heq
    rw [takeWhile_append_eq fs rest hfs hrest]
    rw [if_pos (by
      cases fs with
      | nil => exact absurd rfl hfs0
      | cons a t => exact Nat.succ_pos _), List.drop_left]
  · rename_i after hx
    exact absurd rfl (hx (fs ++ rest))

/-- General shape of the scanner's number arm when no digit follows the
dot: the bare dot is not part of the number and is left unconsumed. -/
theorem scanNumber_baredot (d : Char) (ds rest : List Char)
    (hds : ds.all Char.isDigit = true) (hrest : rest.takeWhile Char.isDigit = []) :
    scanNumber d (ds ++ '.' :: rest) =
      (0, '.' :: rest, Except.ok (some (TokenType.Number (decToF64 (d :: ds) [])))) := by
  unfold scanNumber
  have h1 : ('.' :: rest).takeWhile Char.isDigit = [] := by
    rw [List.takeWhile_cons, if_neg (by decide)]
  rw [takeWhile_append_eq ds _ hds h1]
  dsimp only
  rw [List.drop_left]
  split
  · rename_i after rest1 heq
    obtain rfl : rest = rest1 := by injection heq
    rw [hrest]
    simp
  · rename_i after hx
    rfl

/-- The scanner dispatches any digit-headed input to the number arm. -/
theorem scan_token_digit (d : Char) (cs : List Char) (hd : d.isDigit = true) :
    scan_token (d :: cs) = scanNumber d cs := by
  have hws : d.isWhitespace = false := by
    rcases Bool.eq_false_or_eq_true d.isWhitespace with h | h
    · exfalso
      simp only [Char.isWhitespace] at h
      simp at h
      rcases h with ((rfl | rfl) | rfl) | rfl <;> exact absurd hd (by decide)
    · exact h
  unfold scan_token
  rw [List.dropWhile_cons, if_neg (by simp [hws])]
  simp only [scanTokenTrimmed]
  unfold scanTokenCons
  rw [if_neg (show ¬d = '\n' by rintro rfl; exact absurd hd (by decide)),
    if_neg (show ¬d = '(' by rintro rfl; exact absurd hd (by decide)),
    if_neg (show ¬d = ')' by rintro rfl; exact absurd hd (by decide)),
    if_neg (show ¬d = '{' by rintro rfl; exact absurd hd (by decide)),
    if_neg (show ¬d = '}' by rintro rfl; exact absurd hd (by decide)),
    if_neg (show ¬d = '.' by rintro rfl; exact absurd hd (by decide)),
    if_neg (show ¬d = ',' by rintro rfl; exact absurd hd (by decide)),
    if_neg (show ¬d = '-' by rintro rfl; exact absurd hd (by decide)),
    if_neg (show ¬d = '+' by rintro rfl; exact absurd hd (by decide)),
    if_neg (show ¬d = ';' by rintro rfl; exact absurd hd (by decide)),
    if_neg (show ¬d = '*' by rintro rfl; exact absurd hd (by decide)),
    if_neg (show ¬d = '/' by rintro rfl; exact absurd hd (by decide)),
    if_neg (show ¬d = '!' by rintro rfl; exact absurd hd (by decide)),
    if_neg (show ¬d = '=' by rintro rfl; exact absurd hd (by decide)),
    if_neg (show ¬d = '>' by rintro rfl; exact absurd hd (by decide)),
    if_neg (show ¬d = '<' by rintro rfl; exact absurd hd (by decide)),
    if_neg (show ¬d = '\"' by rintro rfl; exact absurd hd (by decide)),
    if_pos hd]

/-- C7 counterexample: after scanning the number in `"12..34"` the scanner
resumes at the FIRST of the two dots (the remainder is `"..34"`), not at the
second dot as the claim states (which would make the remainder `".34"`). -/
theorem claim_c7_counterexample :
    (scan_token "12..34".toList).2.1 = "..34".toList ∧
    "..34".toList ≠ ".34".toList ∧
    scan_tokens "12..34".toList =
      ([⟨TokenType.Number (F64.fin 12), 1⟩, ⟨TokenType.Dot, 1⟩, ⟨TokenType.Dot, 1⟩,
        ⟨TokenType.Number (F64.fin 34), 1⟩, ⟨TokenType.Eof, 1⟩], []) := by
  refine ⟨rfl, by decide, ?_⟩
  have h : scan_tokens "12..34".toList =
      ([⟨TokenType.Number (decToF64 ['1', '2'] []), 1⟩, ⟨TokenType.Dot, 1⟩,
        ⟨TokenType.Dot, 1⟩, ⟨TokenType.Number (decToF64 ['3', '4'] []), 1⟩,
        ⟨TokenType.Eof, 1⟩], []) := rfl
  rw [decToF64_12, decToF64_34] at h
  exact h

/-- C7 as amended: a number is one or more digits with a fractional part
consumed only when a digit immediately follows the dot (a bare trailing dot
is not part of the number); scanning `"12..34"` produces `Number 12` and
resumes at the FIRST dot (remainder `"..34"`), each dot becoming a `Dot`
token, and `"10."` produces `Number 10` followed by a `Dot` token. -/
theorem claim_c7_number_scanning :
    (∀ (d : Char) (cs : List Char), d.isDigit = true →
      scan_token (d :: cs) = scanNumber d cs) ∧
    (∀ (d : Char) (ds fs rest : List Char),
      ds.all Char.isDigit = true → fs.all Char.isDigit = true → fs ≠ [] →
      rest.takeWhile Char.isDigit = [] →
      scanNumber d (ds ++ '.' :: (fs ++ rest)) =
        (0, rest, Except.ok (some (TokenType.Number (decToF64 (d :: ds) fs))))) ∧
    (∀ (d : Char) (ds rest : List Char),
      ds.all Char.isDigit = true → rest.takeWhile Char.isDigit = [] →
      scanNumber d (ds ++ '.' :: rest) =
        (0, '.' :: rest, Except.ok (some (TokenType.Number (decToF64 (d :: ds) []))))) ∧
    scan_token "12..34".toList =
      (0, "..34".toList, Except.ok (some (TokenType.Number (F64.fin 12)))) ∧
    scan_tokens "12..34".toList =
      ([⟨TokenType.Number (F64.fin 12), 1⟩, ⟨TokenType.Dot, 1⟩, ⟨TokenType.Dot, 1⟩,
        ⟨TokenType.Number (F64.fin 34), 1⟩, ⟨TokenType.Eof, 1⟩], []) ∧
    scan_tokens "10.".toList =
      ([⟨TokenType.Number (F64.fin 10), 1⟩, ⟨TokenType.Dot, 1⟩, ⟨TokenType.Eof, 1⟩], []) := by
  refine ⟨scan_token_digit, scanNumber_fraction, scanNumber_baredot, ?_, ?_, ?_⟩
  · have h : scan_token "12..34".toList =
        (0, "..34".toList, Except.ok (some (TokenType.Number (decToF64 ['1', '2'] [])))) := rfl
    rw [decToF64_12] at h
    exact h
  · have h : scan_tokens "12..34".toList =
        ([⟨TokenType.Number (decToF64 ['1', '2'] []), 1⟩, ⟨TokenType.Dot, 1⟩,
          ⟨TokenType.Dot, 1⟩, ⟨TokenType.Number (decToF64 ['3', '4'] []), 1⟩,
          ⟨TokenType.Eof, 1⟩], []) := rfl
    rw [decToF64_12, decToF64_34] at h
    exact h
  · have h : scan_tokens "10.".toList =
        ([⟨TokenType.Number (decToF64 ['1', '0'] []), 1⟩, ⟨TokenType.Dot, 1⟩,
          ⟨TokenType.Eof, 1⟩], []) := rfl
    rw [decToF64_10] at h
    exact h

/-- Witness for C7's general conjuncts at concrete inputs: scanning
`"12.5x"` takes the fraction, scanning `"12..3"` does not. -/
theorem claim_c7_number_scanning_witness :
    scan_token ('1' :: "2.5x".toList) = scanNumber '1' "2.5x".toList ∧
    scanNumber '1' (['2'] ++ '.' :: (['5'] ++ ['x'])) =
      (0, ['x'], Except.ok (some (TokenType.Number (decToF64 ['1', '2'] ['5'])))) ∧
    scanNumber '1' (['2'] ++ '.' :: ['.', '3']) =
      (0, '.' :: ['.', '3'], Except.ok (some (TokenType.Number (decToF64 ['1', '2'] [])))) :=
  ⟨claim_c7_number_scanning.1 '1' "2.5x".toList (by decide),
   claim_c7_number_scanning.2.1 '1' ['2'] ['5'] ['x'] (by decide) (by decide)
     (by decide) (by decide),
   claim_c7_number_scanning.2.2.1 '1' ['2'] ['.', '3'] (by decide) (by decide)⟩

/-- Tokens of `- x₁ - x₂ … - xₙ` followed by `Eof`. -/
def minusTail (rest : List F64) : List Token :=
  (rest.flatMap fun x => [⟨TokenType.Minus, 1⟩, ⟨TokenType.Number x, 1⟩]) ++
    [⟨TokenType.Eof, 1⟩]

/-- Tokens of the expression `a - x₁ - x₂ … - xₙ`. -/
def minusChain (a : F64) (rest : List F64) : List Token :=
  ⟨TokenType.Number a, 1⟩ :: minusTail rest

/-- The left-associated tree `(…((a - x₁) - x₂) … - xₙ)`. -/
def foldChain (a : F64) (rest : List F64) : Expr :=
  rest.foldl
    (fun acc x => Expr.Binary acc Operator.Minus (Expr.Literal (Literal.Number x)))
    (Expr.Literal (Literal.Number a))

theorem minusTail_length (rest : List F64) :
    (minusTail rest).length = 2 * rest.length + 1 := by
  induction rest with
  | nil => rfl
  | cons x xs ih =>
    simp only [minusTail, List.flatMap_cons, List.cons_append, List.append_assoc] at ih ⊢
    simp [minusTail] at ih ⊢
    omega

theorem peek_of_drop {ts : List Token} {pos : Nat} {tok : Token} {t : List Token}
    (h : ts.drop pos = tok :: t) :
    peek ts pos = some tok.ty ∧ ts.drop (pos + 1) = t := by
  constructor
  · unfold peek
    have h0 : (ts.drop pos).get? 0 = some tok := by rw [h]; rfl
    rw [List.get?_drop] at h0
    simp only [Nat.add_zero] at h0
    rw [h0]
    rfl
  · have hd : ts.drop (pos + 1) = (ts.drop pos).drop 1 := by
      rw [List.drop_drop]
    rw [hd, h]
    rfl

theorem minusTail_drop : ∀ (rest : List F64) (ts : List Token) (pos : Nat),
    ts.drop pos = minusTail rest →
    ts.drop (pos + 2 * rest.length) = [⟨TokenType.Eof, 1⟩] := by
  intro rest
  induction rest with
  | nil => intro ts pos h; simpa [minusTail] using h
  | cons x xs ih =>
    intro ts pos h
    rw [show minusTail (x :: xs) =
      ⟨TokenType.Minus, 1⟩ :: ⟨TokenType.Number x, 1⟩ :: minusTail xs from by
        simp [minusTail]] at h
    have h1 := (peek_of_drop h).2
    have h2 := (peek_of_drop h1).2
    have := ih ts (pos + 1 + 1) h2
    rw [show pos + 2 * (x :: xs).length = pos + 1 + 1 + 2 * xs.length from by
      simp [List.length_cons]; ring]
    exact this

theorem termLoop_succ (ts : List Token) (e : Expr) (pos f : Nat) :
    termLoop ts e pos (f + 1) =
      match termOp (peek ts pos) with
      | some op =>
        match factor ts (pos + 1) f with
        | none => none
        | some (Except.error msg) => some (Except.error msg)
        | some (Except.ok (r, p)) => termLoop ts (Expr.Binary e op r) p f
      | none => some (Except.ok (e, pos)) := rfl

theorem primary_number (ts : List Token) (pos f : Nat) (v : F64)
    (h : peek ts pos = some (TokenType.Number v)) :
    primary ts pos (f + 1) =
      some (Except.ok (Expr.Literal (Literal.Number v), pos + 1)) := by
  simp [primary, h]

theorem unary_number (ts : List Token) (pos f : Nat) (v : F64)
    (h : peek ts pos = some (TokenType.Number v)) :
    unary ts pos (f + 2) =
      some (Except.ok (Expr.Literal (Literal.Number v), pos + 1)) := by
  simp [unary, unaryOp, h]
  exact primary_number ts pos f v h

theorem factor_number (ts : List Token) (pos f : Nat) (v : F64)
    (hv : peek ts pos = some (TokenType.Number v))
    (hnext : factorOp (peek ts (pos + 1)) = none) :
    factor ts pos (f + 3) =
      some (Except.ok (Expr.Literal (Literal.Number v), pos + 1)) := by
  simp [factor, unary_number ts pos f v hv, factorLoop, hnext]

/-- The `term` while loop folds a chain of `-` operators into a
left-associated tree: one iteration per `- xᵢ`, each extending the
accumulator on the left. -/
theorem termLoop_fold : ∀ (rest : List F64) (ts : List Token) (e : Expr) (pos f : Nat),
    ts.drop pos = minusTail rest →
    termLoop ts e pos (5 * rest.length + f + 1) =
      some (Except.ok
        (rest.foldl (fun acc x =>
          Expr.Binary acc Operator.Minus (Expr.Literal (Literal.Number x))) e,
         pos + 2 * rest.length)) := by
  intro rest
  induction rest with
  | nil =>
    intro ts e pos f h
    have hpk := (peek_of_drop (by simpa [minusTail] using h)).1
    rw [show 5 * ([] : List F64).length + f + 1 = f + 1 from by simp]
    rw [termLoop_succ]
    simp [termOp, hpk]
  | cons x xs ih =>
    intro ts e pos f h
    rw [show minusTail (x :: xs) =
      ⟨TokenType.Minus, 1⟩ :: ⟨TokenType.Number x, 1⟩ :: minusTail xs from by
        simp [minusTail]] at h
    obtain ⟨hpk1, h1⟩ := peek_of_drop h
    obtain ⟨hpk2, h2⟩ := peek_of_drop h1
    have hnext : factorOp (peek ts (pos + 1 + 1)) = none := by
      cases xs with
      | nil =>
        have := (peek_of_drop (by simpa [minusTail] using h2)).1
        rw [this]
        rfl
      | cons y ys =>
        have h2' : ts.drop (pos + 1 + 1) =
            ⟨TokenType.Minus, 1⟩ :: ⟨TokenType.Number y, 1⟩ :: minusTail ys := by
          rw [h2]
          simp [minusTail]
        rw [(peek_of_drop h2').1]
        rfl
    rw [show 5 * (x :: xs).length + f + 1 = (5 * xs.length + f + 2 + 3) + 1 from by
      simp [List.length_cons]; ring]
    rw [termLoop_succ]
    rw [hpk1]
    simp only [termOp]
    rw [factor_number ts (pos + 1) (5 * xs.length + f + 2) x hpk2 hnext]
    simp only
    rw [show 5 * xs.length + f + 2 + 3 = 5 * xs.length + (f + 4) + 1 from by ring]
    rw [ih ts _ (pos + 1 + 1) (f + 4) h2]
    simp only [List.foldl_cons]
    congr 2
    simp [List.length_cons]
    ring

theorem comparisonLoop_exit (ts : List Token) (e : Expr) (pos f : Nat)
    (h : comparisonOp (peek ts pos) = none) :
    comparisonLoop ts e pos (f + 1) = some (Except.ok (e, pos)) := by
  simp [comparisonLoop, h]

theorem equalityLoop_exit (ts : List Token) (e : Expr) (pos f : Nat)
    (h : equalityOp (peek ts pos) = none) :
    equalityLoop ts e pos (f + 1) = some (Except.ok (e, pos)) := by
  simp [equalityLoop, h]

theorem minusTail_head_ops (xs : List F64) (ts : List Token) (pos : Nat)
    (h : ts.drop pos = minusTail xs) :
    factorOp (peek ts pos) = none := by
  cases xs with
  | nil =>
    rw [(peek_of_drop (by simpa [minusTail] using h)).1]
    rfl
  | cons y ys =>
    have h' : ts.drop pos =
        (⟨TokenType.Minus, 1⟩ : Token) :: ⟨TokenType.Number y, 1⟩ :: minusTail ys := by
      rw [h]
      simp [minusTail]
    rw [(peek_of_drop h').1]
    rfl

theorem expression_succ (ts : List Token) (pos f : Nat) :
    expression ts pos (f + 1) = equality ts pos f := rfl

theorem equality_succ (ts : List Token) (pos f : Nat) :
    equality ts pos (f + 1) =
      match comparison ts pos f with
      | none => none
      | some (Except.error e) => some (Except.error e)
      | some (Except.ok (e, p)) => equalityLoop ts e p f := rfl

theorem comparison_succ (ts : List Token) (pos f : Nat) :
    comparison ts pos (f + 1) =
      match term ts pos f with
      | none => none
      | some (Except.error e) => some (Except.error e)
      | some (Except.ok (e, p)) => comparisonLoop ts e p f := rfl

theorem term_succ (ts : List Token) (pos f : Nat) :
    term ts pos (f + 1) =
      match factor ts pos f with
      | none => none
      | some (Except.error e) => some (Except.error e)
      | some (Except.ok (e, p)) => termLoop ts e p f := rfl

/-- C8: repeated binary operators of one precedence level fold into a
left-associated tree.  For any number of numeric operands separated by `-`,
the parser returns the left fold (so the tokens of `1-2-3` parse as
`(1-2)-3`), and the tree for `5-2-1` evaluates to `Number 2`. -/
theorem claim_c8_left_associativity :
    (∀ (a : F64) (rest : List F64),
      Parser.parse (minusChain a rest) = Except.ok (foldChain a rest)) ∧
    Parser.parse (minusChain (F64.fin 1) [F64.fin 2, F64.fin 3]) =
      Except.ok (Expr.Binary
        (Expr.Binary (Expr.Literal (Literal.Number (F64.fin 1))) Operator.Minus
          (Expr.Literal (Literal.Number (F64.fin 2))))
        Operator.Minus (Expr.Literal (Literal.Number (F64.fin 3)))) ∧
    evaluate (foldChain (F64.fin 5) [F64.fin 2, F64.fin 1]) =
      Except.ok (Value.Number (F64.fin 2)) := by
  refine ⟨?_, by rfl, by
    simp [foldChain, evaluate, eval_binary_op, F64.fsub, F64.fadd, F64.fneg]
    norm_num⟩
  intro a rest
  have hlen : (minusChain a rest).length = 2 * rest.length + 2 := by
    simp [minusChain, minusTail_length]
  have hdrop0 : (minusChain a rest).drop 0 =
      (⟨TokenType.Number a, 1⟩ : Token) :: minusTail rest := by
    simp [minusChain]
  obtain ⟨hpk0, hdrop1⟩ := peek_of_drop hdrop0
  have hnext : factorOp (peek (minusChain a rest) (0 + 1)) = none :=
    minusTail_head_ops rest _ _ hdrop1
  have heofd := minusTail_drop rest (minusChain a rest) (0 + 1) hdrop1
  have heof := (peek_of_drop heofd).1
  unfold Parser.parse
  rw [show parseFuel (minusChain a rest) = (24 * rest.length + 35) + 1 from by
    simp [parseFuel, hlen]; ring]
  rw [expression_succ]
  rw [show 24 * rest.length + 35 = (24 * rest.length + 34) + 1 from by ring]
  rw [equality_succ]
  rw [show 24 * rest.length + 34 = (24 * rest.length + 33) + 1 from by ring]
  rw [comparison_succ]
  rw [show 24 * rest.length + 33 = (24 * rest.length + 32) + 1 from by ring]
  rw [term_succ]
  rw [show 24 * rest.length + 32 = (24 * rest.length + 29) + 3 from by ring]
  rw [factor_number (minusChain a rest) 0 (24 * rest.length + 29) a hpk0 hnext]
  simp only
  rw [show (24 * rest.length + 29) + 3 = 5 * rest.length + (19 * rest.length + 31) + 1
    from by ring]
  rw [termLoop_fold rest (minusChain a rest) (Expr.Literal (Literal.Number a)) (0 + 1)
    (19 * rest.length + 31) hdrop1]
  simp only
  rw [show 5 * rest.length + (19 * rest.length + 31) + 1 =
    (24 * rest.length + 31) + 1 from by ring]
  rw [comparisonLoop_exit _ _ _ _ (by rw [heof]; rfl)]
  simp only
  rw [show (24 * rest.length + 33) + 1 = (24 * rest.length + 33) + 1 from rfl]
  rw [equalityLoop_exit _ _ _ _ (by rw [heof]; rfl)]
  simp [foldChain]

/-- A rule invocation is "good": it has enough fuel (not `none`) and on
success strictly advances the position without passing the end. -/
def goodR (r : PRes) (pos len : Nat) : Prop :=
  r ≠ none ∧ ∀ e p, r = some (Except.ok (e, p)) → pos < p ∧ p ≤ len

/-- A loop invocation is "good": not `none`, and on success the position
does not decrease and does not pass the end. -/
def goodL (r : PRes) (pos len : Nat) : Prop :=
  r ≠ none ∧ ∀ e p, r = some (Except.ok (e, p)) → pos ≤ p ∧ p ≤ len

theorem peek_lt (ts : List Token) (pos : Nat) (τ : TokenType)
    (h : peek ts pos = some τ) : pos < ts.length := by
  by_contra hc
  have hnone : ts.get? pos = none := List.get?_eq_none.mpr (by omega)
  unfold peek at h
  rw [hnone] at h
  simp at h

theorem unaryOp_some (o : Option TokenType) (op : Unary) (h : unaryOp o = some op) :
    ∃ τ, o = some τ := by
  cases o with
  | none => simp [unaryOp] at h
  | some τ => exact ⟨τ, rfl⟩

theorem factorOp_some (o : Option TokenType) (op : Operator) (h : factorOp o = some op) :
    ∃ τ, o = some τ := by
  cases o with
  | none => simp [factorOp] at h
  | some τ => exact ⟨τ, rfl⟩

theorem termOp_some (o : Option TokenType) (op : Operator) (h : termOp o = some op) :
    ∃ τ, o = some τ := by
  cases o with
  | none => simp [termOp] at h
  | some τ => exact ⟨τ, rfl⟩

theorem comparisonOp_some (o : Option TokenType) (op : Operator)
    (h : comparisonOp o = some op) : ∃ τ, o = some τ := by
  cases o with
  | none => simp [comparisonOp] at h
  | some τ => exact ⟨τ, rfl⟩

theorem equalityOp_some (o : Option TokenType) (op : Operator)
    (h : equalityOp o = some op) : ∃ τ, o = some τ := by
  cases o with
  | none => simp [equalityOp] at h
  | some τ => exact ⟨τ, rfl⟩

theorem primary_succ (ts : List Token) (pos f : Nat) :
    primary ts pos (f + 1) =
      match peek ts pos with
      | some TokenType.False => some (Except.ok (Expr.Literal (Literal.Bool false), pos + 1))
      | some TokenType.True => some (Except.ok (Expr.Literal (Literal.Bool true), pos + 1))
      | some TokenType.Nil => some (Except.ok (Expr.Literal Literal.Nil, pos + 1))
      | some (TokenType.Number v) => some (Except.ok (Expr.Literal (Literal.Number v), pos + 1))
      | some (TokenType.String s) => some (Except.ok (Expr.Literal (Literal.String s), pos + 1))
      | some TokenType.LeftParen =>
        match expression ts (pos + 1) f with
        | none => none
        | some (Except.error msg) => some (Except.error msg)
        | some (Except.ok (inner, p)) =>
          if peek ts p = some TokenType.RightParen then
            some (Except.ok (Expr.Grouping inner, p + 1))
          else some (Except.error "")
      | _ => some (Except.error "expected expression") := rfl

theorem unary_succ (ts : List Token) (pos f : Nat) :
    unary ts pos (f + 1) =
      match unaryOp (peek ts pos) with
      | some op =>
        match unary ts (pos + 1) f with
        | none => none
        | some (Except.error msg) => some (Except.error msg)
        | some (Except.ok (r, p)) => some (Except.ok (Expr.Unary op r, p))
      | none => primary ts pos f := rfl

theorem factor_succ (ts : List Token) (pos f : Nat) :
    factor ts pos (f + 1) =
      match unary ts pos f with
      | none => none
      | some (Except.error e) => some (Except.error e)
      | some (Except.ok (e, p)) => factorLoop ts e p f := rfl

theorem factorLoop_succ (ts : List Token) (e : Expr) (pos f : Nat) :
    factorLoop ts e pos (f + 1) =
      match factorOp (peek ts pos) with
      | some op =>
        match unary ts (pos + 1) f with
        | none => none
        | some (Except.error msg) => some (Except.error msg)
        | some (Except.ok (r, p)) => factorLoop ts (Expr.Binary e op r) p f
      | none => some (Except.ok (e, pos)) := rfl

theorem comparisonLoop_succ (ts : List Token) (e : Expr) (pos f : Nat) :
    comparisonLoop ts e pos (f + 1) =
      match comparisonOp (peek ts pos) with
      | some op =>
        match term ts (pos + 1) f with
        | none => none
        | some (Except.error msg) => some (Except.error msg)
        | some (Except.ok (r, p)) => comparisonLoop ts (Expr.Binary e op r) p f
      | none => some (Except.ok (e, pos)) := rfl

theorem equalityLoop_succ (ts : List Token) (e : Expr) (pos f : Nat) :
    equalityLoop ts e pos (f + 1) =
      match equalityOp (peek ts pos) with
      | some op =>
        match comparison ts (pos + 1) f with
        | none => none
        | some (Except.error msg) => some (Except.error msg)
        | some (Except.ok (r, p)) => equalityLoop ts (Expr.Binary e op r) p f
      | none => some (Except.ok (e, pos)) := rfl

set_option maxHeartbeats 1000000 in
/-- Fuel sufficiency for the whole recursive-descent parser: with fuel at
least `12 * (remaining tokens) + (rule index)`, every rule returns a result
(never the out-of-fuel `none`) and on success advances the position without
passing the end of the token vector. -/
theorem parser_fuel_spec (ts : List Token) : ∀ (fuel pos : Nat), pos ≤ ts.length →
    (12 * (ts.length - pos) + 1 ≤ fuel → goodR (primary ts pos fuel) pos ts.length) ∧
    (12 * (ts.length - pos) + 2 ≤ fuel → goodR (unary ts pos fuel) pos ts.length) ∧
    (∀ e, 12 * (ts.length - pos) + 3 ≤ fuel →
      goodL (factorLoop ts e pos fuel) pos ts.length) ∧
    (12 * (ts.length - pos) + 4 ≤ fuel → goodR (factor ts pos fuel) pos ts.length) ∧
    (∀ e, 12 * (ts.length - pos) + 5 ≤ fuel →
      goodL (termLoop ts e pos fuel) pos ts.length) ∧
    (12 * (ts.length - pos) + 6 ≤ fuel → goodR (term ts pos fuel) pos ts.length) ∧
    (∀ e, 12 * (ts.length - pos) + 7 ≤ fuel →
      goodL (comparisonLoop ts e pos fuel) pos ts.length) ∧
    (12 * (ts.length - pos) + 8 ≤ fuel → goodR (comparison ts pos fuel) pos ts.length) ∧
    (∀ e, 12 * (ts.length - pos) + 9 ≤ fuel →
      goodL (equalityLoop ts e pos fuel) pos ts.length) ∧
    (12 * (ts.length - pos) + 10 ≤ fuel → goodR (equality ts pos fuel) pos ts.length) ∧
    (12 * (ts.length - pos) + 11 ≤ fuel → goodR (expression ts pos fuel) pos ts.length) := by
  intro fuel
  induction fuel using Nat.strong_induction_on with
  | _ fuel ih =>
    intro pos hpos
    refine ⟨?_, ?_, ?_, ?_, ?_, ?_, ?_, ?_, ?_, ?_, ?_⟩
    -- primary
    · intro hf
      obtain ⟨f, rfl⟩ : ∃ f, fuel = f + 1 := ⟨fuel - 1, by omega⟩
      rw [primary_succ]
      cases hpk : peek ts pos with
      | none => exact ⟨by simp, fun e p hep => by simp at hep⟩
      | some τ =>
        have hlt := peek_lt ts pos τ hpk
        cases τ
        case LeftParen =>
          have Hexp := (ih f (by omega) (pos + 1) (by omega)).2.2.2.2.2.2.2.2.2.2
          obtain ⟨hne, hok⟩ := Hexp (by omega)
          cases hx : expression ts (pos + 1) f with
          | none => exact absurd hx hne
          | some r =>
            cases r with
            | error m => exact ⟨by simp, fun e p hep => by simp at hep⟩
            | ok ep =>
              obtain ⟨inner, p⟩ := ep
              obtain ⟨hp1, hp2⟩ := hok inner p (by rw [hx])
              dsimp only
              by_cases hrp : peek ts p = some TokenType.RightParen
              · have hplt := peek_lt ts p _ hrp
                rw [if_pos hrp]
                exact ⟨by simp, fun e p' hep => by
                  simp at hep
                  obtain ⟨-, rfl⟩ := hep
                  omega⟩
              · rw [if_neg hrp]
                exact ⟨by simp, fun e p' hep => by simp at hep⟩
        all_goals refine ⟨by simp, fun e p hep => ?_⟩
        all_goals simp at hep
        all_goals try obtain ⟨-, rfl⟩ := hep
        all_goals omega
    -- unary
    · intro hf
      obtain ⟨f, rfl⟩ : ∃ f, fuel = f + 1 := ⟨fuel - 1, by omega⟩
      rw [unary_succ]
      cases hop : unaryOp (peek ts pos) with
      | none => exact (ih f (by omega) pos hpos).1 (by omega)
      | some op =>
        obtain ⟨τ, hτ⟩ := unaryOp_some _ _ hop
        have hlt := peek_lt ts pos τ hτ
        obtain ⟨hne, hok⟩ := (ih f (by omega) (pos + 1) (by omega)).2.1 (by omega)
        cases hx : unary ts (pos + 1) f with
        | none => exact absurd hx hne
        | some r =>
          cases r with
          | error m => exact ⟨by simp, fun e p hep => by simp at hep⟩
          | ok ep =>
            obtain ⟨r', p⟩ := ep
            obtain ⟨hp1, hp2⟩ := hok r' p (by rw [hx])
            exact ⟨by simp, fun e p' hep => by
              simp at hep
              obtain ⟨-, rfl⟩ := hep
              omega⟩
    -- factorLoop
    · intro e hf
      obtain ⟨f, rfl⟩ : ∃ f, fuel = f + 1 := ⟨fuel - 1, by omega⟩
      rw [factorLoop_succ]
      cases hop : factorOp (peek ts pos) with
      | none =>
        exact ⟨by simp, fun e' p hep => by
          simp at hep
          obtain ⟨-, rfl⟩ := hep
          omega⟩
      | some op =>
        obtain ⟨τ, hτ⟩ := factorOp_some _ _ hop
        have hlt := peek_lt ts pos τ hτ
        obtain ⟨hne, hok⟩ := (ih f (by omega) (pos + 1) (by omega)).2.1 (by omega)
        cases hx : unary ts (pos + 1) f with
        | none => exact absurd hx hne
        | some r =>
          cases r with
          | error m => exact ⟨by simp, fun e' p hep => by simp at hep⟩
          | ok ep =>
            obtain ⟨r', p⟩ := ep
            obtain ⟨hp1, hp2⟩ := hok r' p (by rw [hx])
            obtain ⟨hne2, hok2⟩ :=
              (ih f (by omega) p (by omega)).2.2.1 (Expr.Binary e op r') (by omega)
            refine ⟨hne2, fun e' p' hep => ?_⟩
            obtain ⟨hq1, hq2⟩ := hok2 e' p' hep
            omega
    -- factor
    · intro hf
      obtain ⟨f, rfl⟩ : ∃ f, fuel = f + 1 := ⟨fuel - 1, by omega⟩
      rw [factor_succ]
      obtain ⟨hne, hok⟩ := (ih f (by omega) pos hpos).2.1 (by omega)
      cases hx : unary ts pos f with
      | none => exact absurd hx hne
      | some r =>
        cases r with
        | error m => exact ⟨by simp, fun e p hep => by simp at hep⟩
        | ok ep =>
          obtain ⟨e, p⟩ := ep
          obtain ⟨hp1, hp2⟩ := hok e p (by rw [hx])
          obtain ⟨hne2, hok2⟩ := (ih f (by omega) p (by omega)).2.2.1 e (by omega)
          refine ⟨hne2, fun e' p' hep => ?_⟩
          obtain ⟨hq1, hq2⟩ := hok2 e' p' hep
          omega
    -- termLoop
    · intro e hf
      obtain ⟨f, rfl⟩ : ∃ f, fuel = f + 1 := ⟨fuel - 1, by omega⟩
      rw [termLoop_succ]
      cases hop : termOp (peek ts pos) with
      | none =>
        exact ⟨by simp, fun e' p hep => by
          simp at hep
          obtain ⟨-, rfl⟩ := hep
          omega⟩
      | some op =>
        obtain ⟨τ, hτ⟩ := termOp_some _ _ hop
        have hlt := peek_lt ts pos τ hτ
        obtain ⟨hne, hok⟩ := (ih f (by omega) (pos + 1) (by omega)).2.2.2.1 (by omega)
        cases hx : factor ts (pos + 1) f with
        | none => exact absurd hx hne
        | some r =>
          cases r with
          | error m => exact ⟨by simp, fun e' p hep => by simp at hep⟩
          | ok ep =>
            obtain ⟨r', p⟩ := ep
            obtain ⟨hp1, hp2⟩ := hok r' p (by rw [hx])
            obtain ⟨hne2, hok2⟩ :=
              (ih f (by omega) p (by omega)).2.2.2.2.1 (Expr.Binary e op r') (by omega)
            refine ⟨hne2, fun e' p' hep => ?_⟩
            obtain ⟨hq1, hq2⟩ := hok2 e' p' hep
            omega
    -- term
    · intro hf
      obtain ⟨f, rfl⟩ : ∃ f, fuel = f + 1 := ⟨fuel - 1, by omega⟩
      rw [term_succ]
      obtain ⟨hne, hok⟩ := (ih f (by omega) pos hpos).2.2.2.1 (by omega)
      cases hx : factor ts pos f with
      | none => exact absurd hx hne
      | some r =>
        cases r with
        | error m => exact ⟨by simp, fun e p hep => by simp at hep⟩
        | ok ep =>
          obtain ⟨e, p⟩ := ep
          obtain ⟨hp1, hp2⟩ := hok e p (by rw [hx])
          obtain ⟨hne2, hok2⟩ := (ih f (by omega) p (by omega)).2.2.2.2.1 e (by omega)
          refine ⟨hne2, fun e' p' hep => ?_⟩
          obtain ⟨hq1, hq2⟩ := hok2 e' p' hep
          omega
    -- comparisonLoop
    · intro e hf
      obtain ⟨f, rfl⟩ : ∃ f, fuel = f + 1 := ⟨fuel - 1, by omega⟩
      rw [comparisonLoop_succ]
      cases hop : comparisonOp (peek ts pos) with
      | none =>
        exact ⟨by simp, fun e' p hep => by
          simp at hep
          obtain ⟨-, rfl⟩ := hep
          omega⟩
      | some op =>
        obtain ⟨τ, hτ⟩ := comparisonOp_some _ _ hop
        have hlt := peek_lt ts pos τ hτ
        obtain ⟨hne, hok⟩ := (ih f (by omega) (pos + 1) (by omega)).2.2.2.2.2.1 (by omega)
        cases hx : term ts (pos + 1) f with
        | none => exact absurd hx hne
        | some r =>
          cases r with
          | error m => exact ⟨by simp, fun e' p hep => by simp at hep⟩
          | ok ep =>
            obtain ⟨r', p⟩ := ep
            obtain ⟨hp1, hp2⟩ := hok r' p (by rw [hx])
            obtain ⟨hne2, hok2⟩ :=
              (ih f (by omega) p (by omega)).2.2.2.2.2.2.1 (Expr.Binary e op r') (by omega)
            refine ⟨hne2, fun e' p' hep => ?_⟩
            obtain ⟨hq1, hq2⟩ := hok2 e' p' hep
            omega
    -- comparison
    · intro hf
      obtain ⟨f, rfl⟩ : ∃ f, fuel = f + 1 := ⟨fuel - 1, by omega⟩
      rw [comparison_succ]
      obtain ⟨hne, hok⟩ := (ih f (by omega) pos hpos).2.2.2.2.2.1 (by omega)
      cases hx : term ts pos f with
      | none => exact absurd hx hne
      | some r =>
        cases r with
        | error m => exact ⟨by simp, fun e p hep => by simp at hep⟩
        | ok ep =>
          obtain ⟨e, p⟩ := ep
          obtain ⟨hp1, hp2⟩ := hok e p (by rw [hx])
          obtain ⟨hne2, hok2⟩ :=
            (ih f (by omega) p (by omega)).2.2.2.2.2.2.1 e (by omega)
          refine ⟨hne2, fun e' p' hep => ?_⟩
          obtain ⟨hq1, hq2⟩ := hok2 e' p' hep
          omega
    -- equalityLoop
    · intro e hf
      obtain ⟨f, rfl⟩ : ∃ f, fuel = f + 1 := ⟨fuel - 1, by omega⟩
      rw [equalityLoop_succ]
      cases hop : equalityOp (peek ts pos) with
      | none =>
        exact ⟨by simp, fun e' p hep => by
          simp at hep
          obtain ⟨-, rfl⟩ := hep
          omega⟩
      | some op =>
        obtain ⟨τ, hτ⟩ := equalityOp_some _ _ hop
        have hlt := peek_lt ts pos τ hτ
        obtain ⟨hne, hok⟩ :=
          (ih f (by omega) (pos + 1) (by omega)).2.2.2.2.2.2.2.1 (by omega)
        cases hx : comparison ts (pos + 1) f with
        | none => exact absurd hx hne
        | some r =>
          cases r with
          | error m => exact ⟨by simp, fun e' p hep => by simp at hep⟩
          | ok ep =>
            obtain ⟨r', p⟩ := ep
            obtain ⟨hp1, hp2⟩ := hok r' p (by rw [hx])
            obtain ⟨hne2, hok2⟩ :=
              (ih f (by omega) p (by omega)).2.2.2.2.2.2.2.2.1 (Expr.Binary e op r') (by omega)
            refine ⟨hne2, fun e' p' hep => ?_⟩
            obtain ⟨hq1, hq2⟩ := hok2 e' p' hep
            omega
    -- equality
    · intro hf
      obtain ⟨f, rfl⟩ : ∃ f, fuel = f + 1 := ⟨fuel - 1, by omega⟩
      rw [equality_succ]
      obtain ⟨hne, hok⟩ := (ih f (by omega) pos hpos).2.2.2.2.2.2.2.1 (by omega)
      cases hx : comparison ts pos f with
      | none => exact absurd hx hne
      | some r =>
        cases r with
        | error m => exact ⟨by simp, fun e p hep => by simp at hep⟩
        | ok ep =>
          obtain ⟨e, p⟩ := ep
          obtain ⟨hp1, hp2⟩ := hok e p (by rw [hx])
          obtain ⟨hne2, hok2⟩ :=
            (ih f (by omega) p (by omega)).2.2.2.2.2.2.2.2.1 e (by omega)
          refine ⟨hne2, fun e' p' hep => ?_⟩
          obtain ⟨hq1, hq2⟩ := hok2 e' p' hep
          omega
    -- expression
    · intro hf
      obtain ⟨f, rfl⟩ : ∃ f, fuel = f + 1 := ⟨fuel - 1, by omega⟩
      rw [expression_succ]
      obtain ⟨hne, hok⟩ := (ih f (by omega) pos hpos).2.2.2.2.2.2.2.2.2.1 (by omega)
      exact ⟨hne, hok⟩

/-- C10: for every finite token vector (empty, or not ending in `Eof`,
included) the parser terminates — the fuel supplied by `Parser.parse`
always suffices, so the out-of-fuel fallback is unreachable — and returns
either an expression or a parse error; lookahead is total (`peek` via
`List.get?`), and running out of tokens surfaces as the "expected
expression" parse error. -/
theorem claim_c10_parser_total (ts : List Token) :
    expression ts 0 (parseFuel ts) ≠ none ∧
    ((∃ e, Parser.parse ts = Except.ok e) ∨
      (∃ msg, Parser.parse ts = Except.error msg)) ∧
    Parser.parse [] = Except.error "expected expression" := by
  have hg := (parser_fuel_spec ts (parseFuel ts) 0 (by omega)).2.2.2.2.2.2.2.2.2.2
    (by simp only [parseFuel, Nat.sub_zero]; omega)
  refine ⟨hg.1, ?_, by rfl⟩
  unfold Parser.parse
  cases hx : expression ts 0 (parseFuel ts) with
  | none => exact absurd hx hg.1
  | some r =>
    cases r with
    | error m => exact Or.inr ⟨m, rfl⟩
    | ok ep => exact Or.inl ⟨ep.1, rfl⟩
